import Mathlib

/-!
# Verification of the Barnes-Hut simulation core (`src/world.c`)

Shallow embedding of the physics engine of `constel-pp`: the per-frame
pipeline that builds a Barnes-Hut quadtree over the current star
positions, walks that tree to obtain per-star accelerations, and advances
state with velocity Verlet integration.

Modelling choices:
* C `double` arithmetic is embedded as exact `ℚ` arithmetic (the spec's
  claims are stated "exactly, when arithmetic is exact").
* The libm functions `sqrt`, `atan2`, `cos`, `sin` used by `get_accel`
  are external to the source; they are passed as an explicit record of
  functions (`MathFns`) so every definition stays executable.
* The quadtree uses C structural subtyping: a child pointer refers either
  to a `struct star` or a `struct quad`, discriminated by `size == 0`
  (zero for a star).  The embedding uses one inductive type `QTree` with
  a `nil` constructor for the NULL pointer; a star leaf is a node with
  `size = 0` and no children, mirroring the fact that the C code never
  reads `center`/`children` of a node whose `size` is zero.
* The in-place mutation of the star array is embedded as a pure function
  from the pre-frame star list to the post-frame star list; the C loops
  write star `i` only from star `i`, which is exactly `List.map`.
-/

namespace Constel

/-- 2-d vector of rationals; embeds `struct vecd2`. -/
structure Vecd2 where
  x : ℚ
  y : ℚ
deriving DecidableEq

/-- One element of the star array (`struct star` in `world.c`):
center-of-mass prefix (position and mass; `size` is implicitly zero for
a star), velocity, and the stored half-step acceleration. -/
structure StarS where
  x : ℚ
  y : ℚ
  mass : ℚ
  speed : Vecd2
  accel : Vecd2
deriving DecidableEq

/-- The configuration record (`config` from the missing `common.h`);
fields are exactly the ones `world.c` reads, with the meanings given in
spec section 6. -/
structure Cfg where
  accuracy : ℚ
  epsilon : ℚ
  gravity : ℚ
  speed : ℚ
  min_fps : ℚ
deriving DecidableEq

/-- The external libm functions used by the force kernel.  `world.c`
calls them on `double`s; here they are arbitrary rational functions so
that the embedding stays executable and the theorems hold for the real
functions in particular. -/
structure MathFns where
  sqrt : ℚ → ℚ
  atan2 : ℚ → ℚ → ℚ
  cos : ℚ → ℚ
  sin : ℚ → ℚ

/-- Quadtree node.  `nil` is the C NULL pointer.  A `node` carries the
`struct node` prefix `(x, y, mass, size)` (center of mass and size; size
is zero for a star), the geometric `center` `(cx, cy)` and the four
child pointers.  A star leaf is embedded as a node with `size = 0`,
`cx = cy = 0` and `nil` children (those fields are never read by the C
code for a star). -/
inductive QTree : Type where
  | nil : QTree
  | node (x y mass size cx cy : ℚ) (c0 c1 c2 c3 : QTree) : QTree
deriving DecidableEq

namespace QTree

/-- Center-of-mass x (`node->x`); 0 for NULL (never read in C). -/
def x : QTree → ℚ
  | .nil => 0
  | .node x _ _ _ _ _ _ _ _ _ => x

/-- Center-of-mass y (`node->y`). -/
def y : QTree → ℚ
  | .nil => 0
  | .node _ y _ _ _ _ _ _ _ _ => y

/-- Total mass (`node->mass`). -/
def mass : QTree → ℚ
  | .nil => 0
  | .node _ _ m _ _ _ _ _ _ _ => m

/-- Side length (`node->size`); zero for a star. -/
def size : QTree → ℚ
  | .nil => 0
  | .node _ _ _ s _ _ _ _ _ _ => s

/-- Geometric center x (`quad->center.x`). -/
def cx : QTree → ℚ
  | .nil => 0
  | .node _ _ _ _ c _ _ _ _ _ => c

/-- Geometric center y (`quad->center.y`). -/
def cy : QTree → ℚ
  | .nil => 0
  | .node _ _ _ _ _ c _ _ _ _ => c

/-- Child pointer `quad->children[i]` (indices ≥ 3 give slot 3; the C
index is always in 0..3). -/
def child : QTree → ℕ → QTree
  | .nil, _ => .nil
  | .node _ _ _ _ _ _ c0 c1 c2 c3, i =>
    if i = 0 then c0 else if i = 1 then c1 else if i = 2 then c2 else c3

/-- Store `c` in child slot `i` (`quad->children[i] = c`). -/
def setChild : QTree → ℕ → QTree → QTree
  | .nil, _, _ => .nil
  | .node x y m s cx cy c0 c1 c2 c3, i, c =>
    if i = 0 then .node x y m s cx cy c c1 c2 c3
    else if i = 1 then .node x y m s cx cy c0 c c2 c3
    else if i = 2 then .node x y m s cx cy c0 c1 c c3
    else .node x y m s cx cy c0 c1 c2 c

/-- Number of (non-NULL) nodes in a subtree; a proof measure only. -/
def numNodes : QTree → ℕ
  | .nil => 0
  | .node _ _ _ _ _ _ c0 c1 c2 c3 =>
    1 + numNodes c0 + numNodes c1 + numNodes c2 + numNodes c3

/-- All (non-NULL) nodes of a subtree, the subtree root first. -/
def allNodes : QTree → List QTree
  | .nil => []
  | .node x y m s cx cy c0 c1 c2 c3 =>
    .node x y m s cx cy c0 c1 c2 c3 ::
      (allNodes c0 ++ allNodes c1 ++ allNodes c2 ++ allNodes c3)

end QTree

/-- The stars recorded in a subtree, as `(x, y, mass)` triples: a node
with `size = 0` is a star (the C discrimination rule) and contributes
itself; an interior node contributes its children's stars. -/
def contents : QTree → Multiset (ℚ × ℚ × ℚ)
  | .nil => 0
  | .node x y m s _ _ c0 c1 c2 c3 =>
    if s = 0 then {(x, y, m)}
    else contents c0 + contents c1 + contents c2 + contents c3

/-- Sum of the masses of a star multiset. -/
def msum (c : Multiset (ℚ × ℚ × ℚ)) : ℚ := (c.map (fun p => p.2.2)).sum

/-- Mass-weighted sum of the x coordinates of a star multiset. -/
def mxsum (c : Multiset (ℚ × ℚ × ℚ)) : ℚ := (c.map (fun p => p.1 * p.2.2)).sum

/-- Mass-weighted sum of the y coordinates of a star multiset. -/
def mysum (c : Multiset (ℚ × ℚ × ℚ)) : ℚ := (c.map (fun p => p.2.1 * p.2.2)).sum

/-- The view of a star as a tree leaf: the C child pointer aliases the
`struct star` itself, whose `node` prefix is `(x, y, mass, size = 0)`. -/
def star_leaf (s : StarS) : QTree := .node s.x s.y s.mass 0 0 0 .nil .nil .nil .nil

/-- `get_quadrant` (world.c:190-198): 2-bit quadrant code of the star
relative to the quad center; bit 0 is set iff `star->x > quad->center.x`
(strictly), bit 1 iff `star->y > quad->center.y` (strictly). -/
def get_quadrant (cx cy sx sy : ℚ) : ℕ :=
  (if sx > cx then 1 else 0) + (if sy > cy then 2 else 0)

/-- x coordinate of the center of sub-quadrant `i` of a quad with center
x `cx` and side `size`: `quad->center.x + (quadrant & 0x1 ? shift : -shift)`
with `shift = quad->size / 4` (world.c:255-256). -/
def sub_cx (cx size : ℚ) (i : ℕ) : ℚ :=
  cx + (if i &&& 1 ≠ 0 then size / 4 else -(size / 4))

/-- y coordinate of the center of sub-quadrant `i` (world.c:257). -/
def sub_cy (cy size : ℚ) (i : ℕ) : ℚ :=
  cy + (if i &&& 2 ≠ 0 then size / 4 else -(size / 4))

/-- Membership in the closed square with center `(cx, cy)` and side `sz`. -/
def in_square (cx cy sz px py : ℚ) : Prop :=
  cx - sz / 2 ≤ px ∧ px ≤ cx + sz / 2 ∧ cy - sz / 2 ≤ py ∧ py ≤ cy + sz / 2

instance (cx cy sz px py : ℚ) : Decidable (in_square cx cy sz px py) := by
  unfold in_square; infer_instance

/-- `get_accel` (world.c:76-96): recursive Barnes-Hut walk.  Adds the
acceleration contribution of `node` on the target star at `(sx, sy)` to
the accumulator `acc`.  If `sqrt(dx²+dy²) > node->size * accuracy` the
node is accepted as a single mass; otherwise, if `node->size` is
nonzero, the walk recurses into each non-NULL child; otherwise (a star
at the same coordinates) nothing is added.  The C code is never called
with a NULL node (all call sites are guarded), so the `nil` equation is
arbitrary. -/
def get_accel (M : MathFns) (cfg : Cfg) (sx sy : ℚ) : QTree → Vecd2 → Vecd2
  | .nil, acc => acc
  | .node x y mass size _ _ c0 c1 c2 c3, acc =>
    let dx := x - sx
    let dy := y - sy
    let distance_sqr := dx * dx + dy * dy
    if M.sqrt distance_sqr > size * cfg.accuracy then
      let angle := M.atan2 dy dx
      let accel_abs := mass / (distance_sqr + cfg.epsilon)
      ⟨acc.x + accel_abs * M.cos angle, acc.y + accel_abs * M.sin angle⟩
    else if size ≠ 0 then
      let a0 := if c0 = QTree.nil then acc else get_accel M cfg sx sy c0 acc
      let a1 := if c1 = QTree.nil then a0 else get_accel M cfg sx sy c1 a0
      let a2 := if c2 = QTree.nil then a1 else get_accel M cfg sx sy c2 a1
      if c3 = QTree.nil then a2 else get_accel M cfg sx sy c3 a2
    else acc

/-- The clamped frame time (world.c:202-205): `frame_time = time`,
clamped to `1/min_fps` from above, then scaled by `config.speed`. -/
def frame_time (cfg : Cfg) (time : ℚ) : ℚ :=
  (if time > 1 / cfg.min_fps then 1 / cfg.min_fps else time) * cfg.speed

/-- Minimum of a projection over the star list.  `world.c:214-227`
starts the fold at `+INFINITY`, which the first star always replaces;
for the nonempty list required by `init_world` (`assert(config.stars >
1)`) the result is the minimum of the projections. -/
def fold_min (f : StarS → ℚ) : List StarS → ℚ
  | [] => 0
  | s :: rest => rest.foldl (fun m t => if m > f t then f t else m) (f s)

/-- Maximum of a projection over the star list (fold from `-INFINITY`). -/
def fold_max (f : StarS → ℚ) : List StarS → ℚ
  | [] => 0
  | s :: rest => rest.foldl (fun m t => if m < f t then f t else m) (f s)

/-- The root quad before any insertion (world.c:228-233): geometric
center at the midpoint of the world extents, side the larger of the two
extents; `x`, `y`, `mass` and the children are zero from the per-frame
`memset` (world.c:300) / initial `calloc`. -/
def init_root (stars : List StarS) : QTree :=
  let size_x := fold_max (fun s => s.x) stars - fold_min (fun s => s.x) stars
  let size_y := fold_max (fun s => s.y) stars - fold_min (fun s => s.y) stars
  QTree.node 0 0 0
    (if size_x > size_y then size_x else size_y)
    ((fold_min (fun s => s.x) stars + fold_max (fun s => s.x) stars) / 2)
    ((fold_min (fun s => s.y) stars + fold_max (fun s => s.y) stars) / 2)
    .nil .nil .nil .nil

/-- One star insertion: the `do ... while (quad->size)` loop of the tree
builder (world.c:236-263), written as recursion on an explicit fuel (the
C loop has no intrinsic bound; termination is claim C9).  Returns the
updated subtree together with the number of quads taken from the arena
(`quad_count` increments).  Each iteration folds the star into the
current quad's center of mass, computes the star's quadrant and then
either (empty slot) stores the star and stops, or (slot holding a node
with `size == 0`, i.e. a star by the C discrimination) allocates a new
half-size quad, moves the old star pointer under it and continues into
it if its size is nonzero, or (interior quad) descends.  The C code
never runs the loop body on a NULL quad, so `nil` returns `none`. -/
def insert_star (s : StarS) : ℕ → QTree → Option (QTree × ℕ)
  | 0, _ => none
  | _ + 1, .nil => none
  | fuel + 1, .node qx qy qm qsize qcx qcy c0 c1 c2 c3 =>
    let mass_sum := qm + s.mass
    let nx := (qx * qm + s.x * s.mass) / mass_sum
    let ny := (qy * qm + s.y * s.mass) / mass_sum
    let quadrant := get_quadrant qcx qcy s.x s.y
    let q1 : QTree := .node nx ny mass_sum qsize qcx qcy c0 c1 c2 c3
    let c := q1.child quadrant
    if c = QTree.nil then some (q1.setChild quadrant (star_leaf s), 0)
    else if c.size = 0 then
      let new_quad : QTree :=
        QTree.setChild
          (.node c.x c.y c.mass (qsize / 2) (sub_cx qcx qsize quadrant)
            (sub_cy qcy qsize quadrant) .nil .nil .nil .nil)
          (get_quadrant (sub_cx qcx qsize quadrant) (sub_cy qcy qsize quadrant) c.x c.y) c
      if (qsize / 2 : ℚ) ≠ 0 then
        Option.map (fun z => (q1.setChild quadrant z.1, z.2 + 1))
          (insert_star s fuel new_quad)
      else some (q1.setChild quadrant new_quad, 1)
    else
      Option.map (fun z => (q1.setChild quadrant z.1, z.2))
        (insert_star s fuel c)

/-- The build phase continued from a given tree and quad counter:
inserts each star of `todo` in turn (world.c:236, the outer `for`). -/
def build_from (fuel : ℕ) (todo : List StarS) (t : QTree) (cnt : ℕ) : Option (QTree × ℕ) :=
  match todo with
  | [] => some (t, cnt)
  | s :: rest =>
    match insert_star s fuel t with
    | none => none
    | some (t2, k) => build_from fuel rest t2 (cnt + k)

/-- The whole build phase of a frame (world.c:212-263): bounds pass,
root setup (`quad_count = 1`), then one insertion per star. -/
def build_tree (fuel : ℕ) (stars : List StarS) : Option (QTree × ℕ) :=
  build_from fuel stars (init_root stars) 1

/-- The per-star body of the acceleration phase (world.c:109-117 in the
pool worker, identical to the inline path world.c:279-287): accumulate
the tree walk from zero, scale by `frame_time * gravity / 2`, advance
the velocity by the stored half-step acceleration plus the new one
(velocity Verlet), and store the new half-step acceleration. -/
def update_star (M : MathFns) (cfg : Cfg) (ft : ℚ) (root : QTree) (s : StarS) : StarS :=
  let a := get_accel M cfg s.x s.y root ⟨0, 0⟩
  let ax := a.x * (ft * cfg.gravity / 2)
  let ay := a.y * (ft * cfg.gravity / 2)
  { s with
    speed := ⟨s.speed.x + s.accel.x + ax, s.speed.y + s.accel.y + ay⟩
    accel := ⟨ax, ay⟩ }

/-- The per-star body of the integration phase (world.c:289-292):
`pos += frame_time * (speed + accel)`. -/
def integrate_star (ft : ℚ) (s : StarS) : StarS :=
  { s with x := s.x + ft * (s.speed.x + s.accel.x), y := s.y + ft * (s.speed.y + s.accel.y) }

/-- One frame (`world_frame`, world.c:200-301), single-threaded path:
clamp the timestep, build the tree, update every star's velocity and
stored acceleration, then integrate positions.  Returns the new star
list and the final `quad_count` (display-buffer copy and arena `memset`
carry no star state).  `none` only when the insertion loop exhausts its
fuel. -/
def world_frame (M : MathFns) (cfg : Cfg) (fuel : ℕ) (time : ℚ) (stars : List StarS) :
    Option (List StarS × ℕ) :=
  let ft := frame_time cfg time
  match build_tree fuel stars with
  | none => none
  | some (root, cnt) =>
    some (((stars.map (update_star M cfg ft root)).map (integrate_star ft)), cnt)

/-- Apply `f` to the elements with (0-based) index in `[lo, hi)`; `i` is
the index of the head of the remaining list. -/
def apply_range (f : StarS → StarS) (lo hi : ℕ) : ℕ → List StarS → List StarS
  | _, [] => []
  | i, s :: rest => (if lo ≤ i ∧ i < hi then f s else s) :: apply_range f lo hi (i + 1) rest

/-- The index range of pool worker `p` of `P` over `n` stars and its
action on the star array (`update_stars_job`, world.c:100-122):
`part_start = config.stars * part / cores`,
`part_end = config.stars * (part+1) / cores` (integer division). -/
def run_worker (f : StarS → StarS) (n P p : ℕ) (stars : List StarS) : List StarS :=
  apply_range f (n * p / P) (n * (p + 1) / P) 0 stars

/-- The acceleration phase as executed by the pool (world.c:273-277):
each of the `P` workers updates its own index range; the ranges are
pairwise disjoint, so the result does not depend on the interleaving and
is modelled as running the workers in order. -/
def run_pool (f : StarS → StarS) (n P : ℕ) (stars : List StarS) : List StarS :=
  (List.range P).foldl (fun st p => run_worker f n P p st) stars

/-- The spec's wording of the rejected-node case of the force kernel:
"recurse into each of the four child slots that are non-null", in slot
order, threading the accumulator. -/
def spec_recurse_children (M : MathFns) (cfg : Cfg) (sx sy : ℚ)
    (c0 c1 c2 c3 : QTree) (acc : Vecd2) : Vecd2 :=
  let a0 := if c0 = QTree.nil then acc else get_accel M cfg sx sy c0 acc
  let a1 := if c1 = QTree.nil then a0 else get_accel M cfg sx sy c1 a0
  let a2 := if c2 = QTree.nil then a1 else get_accel M cfg sx sy c2 a1
  if c3 = QTree.nil then a2 else get_accel M cfg sx sy c3 a2

/-- Geometric relation between a quad of side `size` centered at
`(cx, cy)` and the occupant `c` of its child slot `i`: a star occupant
(`size == 0` in the C discrimination) lies inside the closed
sub-quadrant square; a quad occupant is the sub-quadrant itself (half
the side, center shifted by a quarter side). -/
def childGeom (size cx cy : ℚ) (i : ℕ) (c : QTree) : Prop :=
  c ≠ QTree.nil →
    ((c.size = 0 → in_square (sub_cx cx size i) (sub_cy cy size i) (size / 2) c.x c.y) ∧
     (c.size ≠ 0 → c.size = size / 2 ∧ c.cx = sub_cx cx size i ∧ c.cy = sub_cy cy size i))

/-- Structural invariant of the trees the builder constructs: a node
with `size = 0` (a star) has no children, and every non-NULL child of an
interior node satisfies `childGeom` for its slot, recursively. -/
def InvT : QTree → Prop
  | .nil => True
  | .node _ _ _ s cx cy c0 c1 c2 c3 =>
    (s = 0 → c0 = .nil ∧ c1 = .nil ∧ c2 = .nil ∧ c3 = .nil) ∧
    childGeom s cx cy 0 c0 ∧ childGeom s cx cy 1 c1 ∧
    childGeom s cx cy 2 c2 ∧ childGeom s cx cy 3 c3 ∧
    InvT c0 ∧ InvT c1 ∧ InvT c2 ∧ InvT c3

/-- The center-of-mass bookkeeping of one node: its `mass` is the total
mass of the stars recorded below it and `(x, y) * mass` the
mass-weighted sums of their positions. -/
def NodeOK (t : QTree) : Prop :=
  t.mass = msum (contents t) ∧
  t.x * t.mass = mxsum (contents t) ∧
  t.y * t.mass = mysum (contents t)

/-- `NodeOK` at every node of a subtree. -/
def TreeOK : QTree → Prop
  | .nil => True
  | .node x y m s cx cy c0 c1 c2 c3 =>
    NodeOK (.node x y m s cx cy c0 c1 c2 c3) ∧
    TreeOK c0 ∧ TreeOK c1 ∧ TreeOK c2 ∧ TreeOK c3

/-- All star masses recorded in a subtree are positive. -/
def PosMass (t : QTree) : Prop := ∀ p ∈ contents t, 0 < p.2.2

/-- Chebyshev (maximum-coordinate) distance between two points; governs
when the strictly halving quads separate two distinct positions. -/
def dinf (sx sy px py : ℚ) : ℚ := max |sx - px| |sy - py|

/-- Concrete stand-ins for the libm functions, for witnesses. -/
def M0 : MathFns := ⟨fun q => q, fun a b => a + b, fun _ => 2, fun _ => 3⟩

/-- A concrete configuration for witnesses. -/
def cfg0 : Cfg := ⟨1, 1, 1, 1, 1⟩

/-- Two distinct stars with positive masses, for witnesses. -/
def demoA : List StarS := [⟨0, 0, 1, ⟨0, 0⟩, ⟨0, 0⟩⟩, ⟨1, 1, 2, ⟨0, 0⟩, ⟨0, 0⟩⟩]

/-- The tree `build_tree` produces from `demoA`. -/
def demoTreeA : QTree :=
  .node (2/3) (2/3) 3 1 (1/2) (1/2)
    (.node 0 0 1 0 0 0 .nil .nil .nil .nil) .nil .nil
    (.node 1 1 2 0 0 0 .nil .nil .nil .nil)

/-- Two stars with nonzero velocities and stored accelerations, for the
zero-timestep and mass-preservation witnesses. -/
def demoB : List StarS := [⟨0, 0, 1, ⟨1, 2⟩, ⟨3, 4⟩⟩, ⟨1, 1, 2, ⟨5, 6⟩, ⟨7, 8⟩⟩]

/-- Three stars (two of them 2⁻¹⁰ apart inside a world of extent 1) that
make the builder allocate 10 quads for the close pair alone, exceeding
the `2 * config.stars = 6` slots the arena holds. -/
def demoOver : List StarS :=
  [⟨0, 0, 1, ⟨0, 0⟩, ⟨0, 0⟩⟩, ⟨1/1024, 0, 1, ⟨0, 0⟩, ⟨0, 0⟩⟩, ⟨1, 1, 1, ⟨0, 0⟩, ⟨0, 0⟩⟩]

/-! ## Theorems -/

/-- A node is never the NULL pointer (in rewrite form, to let `simp`
decide the builder's `children[quadrant] == NULL` tests). -/
theorem node_ne_nil (x y m s cx cy : ℚ) (c0 c1 c2 c3 : QTree) :
    (QTree.node x y m s cx cy c0 c1 c2 c3 = QTree.nil) = False := by
  simp only [eq_iff_iff, iff_false]
  exact fun h => QTree.noConfusion h

/-- **C1** (code_bug evidence). The quad "allocation" of the builder
(world.c:249-250) is `&quads[quad_count]; quad_count++` with no bound
check whatever (`init_world` sizes the arena to `2 * config.stars`
slots, world.c:157, with a `TODO: dynamic reallocation`).  On the
concrete 3-star input `demoOver` the build phase completes normally with
`quad_count = 11 > 2 * 3`: the claimed fatal diagnostic does not exist,
and in C these writes run past the end of the arena. -/
theorem C1_quad_alloc_has_no_capacity_check :
    (build_tree 15 demoOver).map (fun r => r.2) = some 11 ∧ 2 * 3 < 11 := by
  refine ⟨?_, by norm_num⟩
  norm_num [build_tree, build_from, insert_star, init_root, fold_min, fold_max,
    get_quadrant, sub_cx, sub_cy, star_leaf, QTree.child, QTree.setChild, QTree.size,
    QTree.x, QTree.y, QTree.mass, QTree.cx, QTree.cy, demoOver, node_ne_nil]

/-- **C2** (counterexample). The claim says a star coordinate equal to
the center coordinate sets the quadrant bit; `get_quadrant`
(world.c:193-196) uses strict `>`, so an equal coordinate leaves the bit
clear: a star exactly at the center gets quadrant 0, and the x-bit is
not set whenever `star.x = quad.center.x`. -/
theorem C2_equal_coordinate_not_greater_side :
    get_quadrant 0 0 0 0 = 0 ∧
    ¬ (∀ (cx cy sx sy : ℚ), sx = cx → get_quadrant cx cy sx sy &&& 1 = 1) := by
  refine ⟨by decide, fun h => absurd (h 0 0 0 0 rfl) (by decide)⟩

/-- **C2** (amended). For every quad and star, a star coordinate equal
to the corresponding center coordinate is treated as the *lesser* side:
the x-bit (bit 0) is clear when `star.x = quad.center.x`, and the y-bit
(bit 1) is clear when `star.y = quad.center.y`. -/
theorem C2_equal_coordinate_lesser_side (cx cy sx sy : ℚ) :
    get_quadrant cx cy cx sy &&& 1 = 0 ∧ get_quadrant cx cy sx cy &&& 2 = 0 := by
  constructor
  · by_cases h : sy > cy <;> simp [get_quadrant, lt_irrefl, h]
  · by_cases h : sx > cx <;> simp [get_quadrant, lt_irrefl, h]

/-- **C3**. Case analysis of the force kernel (world.c:76-96), exactly
as the spec states it with `d = n.com - s.pos`, `r² = d·d`: if
`sqrt r² > n.size · θ` the kernel adds exactly the vector
`(|a|·cos φ, |a|·sin φ)` with `|a| = n.mass / (r² + ε)` and
`φ = atan2(d.y, d.x)`; otherwise, if `n.size ≠ 0`, it recurses into
exactly the non-null child slots in order; otherwise it adds nothing. -/
theorem C3_force_kernel_cases (M : MathFns) (cfg : Cfg)
    (sx sy x y mass size cx cy : ℚ) (c0 c1 c2 c3 : QTree) (acc : Vecd2) :
    (M.sqrt ((x - sx) * (x - sx) + (y - sy) * (y - sy)) > size * cfg.accuracy →
      get_accel M cfg sx sy (.node x y mass size cx cy c0 c1 c2 c3) acc =
        ⟨acc.x + mass / ((x - sx) * (x - sx) + (y - sy) * (y - sy) + cfg.epsilon) *
            M.cos (M.atan2 (y - sy) (x - sx)),
         acc.y + mass / ((x - sx) * (x - sx) + (y - sy) * (y - sy) + cfg.epsilon) *
            M.sin (M.atan2 (y - sy) (x - sx))⟩) ∧
    (¬ M.sqrt ((x - sx) * (x - sx) + (y - sy) * (y - sy)) > size * cfg.accuracy →
      size ≠ 0 →
      get_accel M cfg sx sy (.node x y mass size cx cy c0 c1 c2 c3) acc =
        spec_recurse_children M cfg sx sy c0 c1 c2 c3 acc) ∧
    (¬ M.sqrt ((x - sx) * (x - sx) + (y - sy) * (y - sy)) > size * cfg.accuracy →
      size = 0 →
      get_accel M cfg sx sy (.node x y mass size cx cy c0 c1 c2 c3) acc = acc) := by
  refine ⟨fun h => ?_, fun h hs => ?_, fun h hs => ?_⟩
  · simp [get_accel, h]
  · simp [get_accel, h, hs, spec_recurse_children]
  · subst hs
    simp only [get_accel]
    rw [if_neg h]
    simp

/-- Witness for C3: on a concrete accepted node the kernel output equals
the spec's formula, evaluated. -/
theorem C3_witness :
    get_accel M0 cfg0 0 0 (.node 2 0 5 0 0 0 .nil .nil .nil .nil) ⟨0, 0⟩ = ⟨2, 3⟩ := by
  have h := (C3_force_kernel_cases M0 cfg0 0 0 2 0 5 0 0 0 .nil .nil .nil .nil ⟨0, 0⟩).1
    (by norm_num [M0, cfg0])
  rw [h]
  norm_num [M0, cfg0]

/-- **C5**. With `ε > 0` the force kernel never divides by zero: the
accepted-branch denominator `r² + ε` is strictly positive for all
inputs; and a node at exactly the target star's position with
`size = 0` takes neither the accepted branch (`sqrt 0 > 0` fails) nor
the recursion branch, so it contributes nothing.  (`get_accel` is a
total Lean function, so totality is by construction.) -/
theorem C5_kernel_total_no_div_by_zero (M : MathFns) (cfg : Cfg)
    (hε : 0 < cfg.epsilon) (hsq : M.sqrt 0 = 0) :
    (∀ dx dy : ℚ, 0 < dx * dx + dy * dy + cfg.epsilon) ∧
    (∀ (sx sy m cx cy : ℚ) (c0 c1 c2 c3 : QTree) (acc : Vecd2),
      get_accel M cfg sx sy (.node sx sy m 0 cx cy c0 c1 c2 c3) acc = acc) := by
  constructor
  · intro dx dy
    nlinarith [mul_self_nonneg dx, mul_self_nonneg dy]
  · intro sx sy m cx cy c0 c1 c2 c3 acc
    simp [get_accel, hsq]

/-- Witness for C5: concrete instantiation (`ε = 1`, identity square
root), with both conjuncts evaluated at concrete points. -/
theorem C5_witness :
    0 < (1 : ℚ) * 1 + 2 * 2 + cfg0.epsilon ∧
    get_accel M0 cfg0 7 8 (.node 7 8 5 0 0 0 .nil .nil .nil .nil) ⟨1, 2⟩ = ⟨1, 2⟩ :=
  ⟨(C5_kernel_total_no_div_by_zero M0 cfg0 (by norm_num [cfg0]) rfl).1 1 2,
   (C5_kernel_total_no_div_by_zero M0 cfg0 (by norm_num [cfg0]) rfl).2 7 8 5 0 0
     .nil .nil .nil .nil ⟨1, 2⟩⟩

/-- **C7**. The effective timestep (world.c:202-205) equals
`min(Δ, 1/min_fps) · speed` for every wall-clock delta `Δ`, and for
`Δ > 1/min_fps` it is exactly `(1/min_fps) · speed`, hence never above
it. -/
theorem C7_timestep_clamp (cfg : Cfg) :
    (∀ time : ℚ, frame_time cfg time = min time (1 / cfg.min_fps) * cfg.speed) ∧
    (∀ time : ℚ, 1 / cfg.min_fps < time →
      frame_time cfg time ≤ (1 / cfg.min_fps) * cfg.speed ∧
      frame_time cfg time = (1 / cfg.min_fps) * cfg.speed) := by
  constructor
  · intro time
    unfold frame_time
    by_cases h : time > 1 / cfg.min_fps
    · rw [if_pos h, min_eq_right (le_of_lt h)]
    · rw [if_neg h, min_eq_left (not_lt.mp h)]
  · intro time h
    unfold frame_time
    rw [if_pos h]
    exact ⟨le_refl _, rfl⟩

/-- Witness for C7: a large delta (`Δ = 2`, `min_fps = speed = 1`) is
clamped to `1/min_fps · speed = 1`. -/
theorem C7_witness :
    1 / cfg0.min_fps < (2 : ℚ) ∧ frame_time cfg0 2 = (1 / cfg0.min_fps) * cfg0.speed :=
  ⟨by norm_num [cfg0], ((C7_timestep_clamp cfg0).2 2 (by norm_num [cfg0])).2⟩

/-- **C8**. A frame with `wall_dt = 0` (so `frame_time = 0` by the
clamp, given the configuration requirement `min_fps > 0`) leaves every
star's position unchanged, advances each velocity by exactly the stored
half-step acceleration of the previous frame, and zeroes the stored
acceleration: the new half-step acceleration is scaled by
`frame_time * gravity / 2 = 0` and the integration adds
`frame_time * (...) = 0`. -/
theorem C8_zero_dt_frame (M : MathFns) (cfg : Cfg) (fuel : ℕ)
    (stars stars2 : List StarS) (cnt : ℕ) (hfps : 0 < cfg.min_fps)
    (h : world_frame M cfg fuel 0 stars = some (stars2, cnt)) :
    stars2 = stars.map (fun s =>
      { s with speed := ⟨s.speed.x + s.accel.x, s.speed.y + s.accel.y⟩,
               accel := (⟨0, 0⟩ : Vecd2) }) := by
  have hft : frame_time cfg 0 = 0 := by
    unfold frame_time
    rw [if_neg (not_lt.mpr (le_of_lt (one_div_pos.mpr hfps)))]
    exact zero_mul _
  rcases hb : build_tree fuel stars with _ | ⟨root, cnt2⟩ <;>
    simp only [world_frame, hft, hb] at h
  · exact absurd h (by simp)
  · simp only [Option.some.injEq, Prod.mk.injEq] at h
    obtain ⟨hs, -⟩ := h
    subst hs
    rw [List.map_map]
    congr 1
    funext s
    simp [update_star, integrate_star]

/-- Witness for C8: a concrete zero-timestep frame on two stars with
nonzero velocities and stored accelerations. -/
theorem C8_witness :
    (0 : ℚ) < cfg0.min_fps ∧
    ([⟨0, 0, 1, ⟨4, 6⟩, ⟨0, 0⟩⟩, ⟨1, 1, 2, ⟨12, 14⟩, ⟨0, 0⟩⟩] : List StarS) =
      demoB.map (fun s =>
        { s with speed := ⟨s.speed.x + s.accel.x, s.speed.y + s.accel.y⟩,
                 accel := (⟨0, 0⟩ : Vecd2) }) :=
  ⟨by norm_num [cfg0],
   C8_zero_dt_frame M0 cfg0 5 demoB _ 1 (by norm_num [cfg0])
     (by norm_num [world_frame, frame_time, build_tree, build_from, insert_star,
       init_root, fold_min, fold_max, get_quadrant, sub_cx, sub_cy, star_leaf,
       QTree.child, QTree.setChild, QTree.size, QTree.x, QTree.y, QTree.mass,
       QTree.cx, QTree.cy, update_star, integrate_star, get_accel, M0, cfg0, demoB])⟩

/-- **C10**. One frame never changes any star's mass and never changes
the length or ordering of the star array: the update and integration
loops write star `i` from star `i` only, touching only the position,
speed, and stored-acceleration fields. -/
theorem C10_frame_preserves_mass_and_order (M : MathFns) (cfg : Cfg) (fuel : ℕ)
    (time : ℚ) (stars stars2 : List StarS) (cnt : ℕ)
    (h : world_frame M cfg fuel time stars = some (stars2, cnt)) :
    stars2.length = stars.length ∧
    ∀ i : ℕ, stars2[i]?.map StarS.mass = stars[i]?.map StarS.mass := by
  rcases hb : build_tree fuel stars with _ | ⟨root, cnt2⟩ <;>
    simp only [world_frame, hb] at h
  · exact absurd h (by simp)
  · simp only [Option.some.injEq, Prod.mk.injEq] at h
    obtain ⟨hs, -⟩ := h
    subst hs
    refine ⟨by simp, fun i => ?_⟩
    rcases hi : stars[i]? with _ | s <;>
      simp [List.getElem?_map, hi, update_star, integrate_star]

/-- Witness for C10: the concrete frame of the C8 witness preserves the
length and the mass at index 0. -/
theorem C10_witness :
    ([⟨0, 0, 1, ⟨4, 6⟩, ⟨0, 0⟩⟩, ⟨1, 1, 2, ⟨12, 14⟩, ⟨0, 0⟩⟩] : List StarS).length
        = demoB.length ∧
    ([⟨0, 0, 1, ⟨4, 6⟩, ⟨0, 0⟩⟩, ⟨1, 1, 2, ⟨12, 14⟩, ⟨0, 0⟩⟩] :
        List StarS)[0]?.map StarS.mass = demoB[0]?.map StarS.mass := by
  have h := C10_frame_preserves_mass_and_order M0 cfg0 5 0 demoB
    [⟨0, 0, 1, ⟨4, 6⟩, ⟨0, 0⟩⟩, ⟨1, 1, 2, ⟨12, 14⟩, ⟨0, 0⟩⟩] 1
    (by norm_num [world_frame, frame_time, build_tree, build_from, insert_star,
      init_root, fold_min, fold_max, get_quadrant, sub_cx, sub_cy, star_leaf,
      QTree.child, QTree.setChild, QTree.size, QTree.x, QTree.y, QTree.mass,
      QTree.cx, QTree.cy, update_star, integrate_star, get_accel, M0, cfg0, demoB])
  exact ⟨h.1, h.2 0⟩

/-- Disjoint consecutive index ranges compose: applying `f` on `[b, c)`
after `[a, b)` equals applying it on `[a, c)`. -/
theorem apply_range_compose (f : StarS → StarS) (a b c : ℕ) (hab : a ≤ b) (hbc : b ≤ c) :
    ∀ (l : List StarS) (i : ℕ),
      apply_range f b c i (apply_range f a b i l) = apply_range f a c i l := by
  intro l
  induction l with
  | nil => intro i; rfl
  | cons s rest ih =>
    intro i
    simp only [apply_range]
    rw [ih (i + 1)]
    congr 1
    split_ifs <;> first | rfl | omega

/-- An empty index range changes nothing. -/
theorem apply_range_empty_range (f : StarS → StarS) (a : ℕ) :
    ∀ (l : List StarS) (i : ℕ), apply_range f a a i l = l := by
  intro l
  induction l with
  | nil => intro i; rfl
  | cons s rest ih =>
    intro i
    simp only [apply_range, ih (i + 1)]
    rw [if_neg (by omega)]

/-- After the first `p` workers have run, exactly the indices in
`[0, n*p/P)` have been updated. -/
theorem run_pool_covers (f : StarS → StarS) (n P : ℕ) :
    ∀ (p : ℕ) (l : List StarS),
      (List.range p).foldl (fun st q => run_worker f n P q st) l =
        apply_range f 0 (n * p / P) 0 l := by
  intro p
  induction p with
  | zero =>
    intro l
    simp [List.range_zero, Nat.zero_div, apply_range_empty_range]
  | succ p ih =>
    intro l
    rw [List.range_succ, List.foldl_append, ih]
    simp only [List.foldl_cons, List.foldl_nil, run_worker]
    exact apply_range_compose f 0 (n * p / P) (n * (p + 1) / P) (Nat.zero_le _)
      (Nat.div_le_div_right (Nat.mul_le_mul_left n (Nat.le_succ p))) l 0

/-- A range covering every index of the list is `List.map`. -/
theorem apply_range_full (f : StarS → StarS) (N : ℕ) :
    ∀ (l : List StarS) (i : ℕ), i + l.length ≤ N →
      apply_range f 0 N i l = l.map f := by
  intro l
  induction l with
  | nil => intro i _; rfl
  | cons s rest ih =>
    intro i hi
    simp only [apply_range, List.map_cons, List.length_cons] at *
    rw [if_pos (by omega), ih (i + 1) (by omega)]

/-- **C6**. With a fixed pre-frame state, the acceleration-and-velocity
phase computed by `P > 0` pool workers over their integer-division index
ranges `[n*p/P, n*(p+1)/P)` (world.c:104-105) equals the single-threaded
inline path (world.c:279-287), star by star — the ranges partition
`[0, n)` and each index is written exactly once — and therefore the
integrated positions agree as well. -/
theorem C6_pool_equals_inline (M : MathFns) (cfg : Cfg) (ft : ℚ) (root : QTree)
    (n P : ℕ) (stars : List StarS) (hP : 0 < P) (hn : stars.length = n) :
    run_pool (update_star M cfg ft root) n P stars =
      stars.map (update_star M cfg ft root) ∧
    (run_pool (update_star M cfg ft root) n P stars).map (integrate_star ft) =
      (stars.map (update_star M cfg ft root)).map (integrate_star ft) := by
  have h1 : run_pool (update_star M cfg ft root) n P stars =
      stars.map (update_star M cfg ft root) := by
    unfold run_pool
    rw [run_pool_covers, Nat.mul_div_cancel _ hP]
    exact apply_range_full _ n stars 0 (by omega)
  exact ⟨h1, by rw [h1]⟩

/-- Witness for C6: two workers over two stars produce the `List.map`
of the inline path. -/
theorem C6_witness :
    0 < 2 ∧ demoB.length = 2 ∧
    run_pool (update_star M0 cfg0 1 demoTreeA) 2 2 demoB =
      demoB.map (update_star M0 cfg0 1 demoTreeA) :=
  ⟨by norm_num, rfl, (C6_pool_equals_inline M0 cfg0 1 demoTreeA 2 2 demoB
    (by norm_num) rfl).1⟩

/-! ### Helper lemmas for the build-phase invariants (claims C4, C9) -/

theorem quadrant_lt4 (cx cy px py : ℚ) : get_quadrant cx cy px py < 4 := by
  unfold get_quadrant
  by_cases hx : px > cx <;> by_cases hy : py > cy <;> simp [hx, hy]

/-- A point of a square lies in the closed sub-square of its quadrant. -/
theorem in_square_of_quadrant (cx cy sz px py : ℚ) (hin : in_square cx cy sz px py)
    (i : ℕ) (hi : i = get_quadrant cx cy px py) :
    in_square (sub_cx cx sz i) (sub_cy cy sz i) (sz / 2) px py := by
  obtain ⟨h1, h2, h3, h4⟩ := hin
  subst hi
  by_cases hx : px > cx <;> by_cases hy : py > cy <;>
    simp [get_quadrant, sub_cx, sub_cy, in_square, hx, hy] <;>
    refine ⟨by linarith, by linarith, by linarith, by linarith⟩

/-- For a nonnegative side, each closed sub-square is inside the square. -/
theorem square_of_sub_square (cx cy sz px py : ℚ) (i : ℕ) (hsz : 0 ≤ sz)
    (h : in_square (sub_cx cx sz i) (sub_cy cy sz i) (sz / 2) px py) :
    in_square cx cy sz px py := by
  unfold in_square at h ⊢
  unfold sub_cx sub_cy at h
  split_ifs at h <;>
    · obtain ⟨a1, a2, a3, a4⟩ := h
      refine ⟨by linarith, by linarith, by linarith, by linarith⟩

/-- Two points of a closed square of side `sz` are at Chebyshev distance
at most `sz`. -/
theorem dinf_le_of_in_square (cx cy sz x1 y1 x2 y2 : ℚ)
    (h1 : in_square cx cy sz x1 y1) (h2 : in_square cx cy sz x2 y2) :
    dinf x1 y1 x2 y2 ≤ sz := by
  obtain ⟨a1, a2, a3, a4⟩ := h1
  obtain ⟨b1, b2, b3, b4⟩ := h2
  unfold dinf
  apply max_le <;> rw [abs_sub_le_iff] <;> exact ⟨by linarith, by linarith⟩

/-- Distinct points are at positive Chebyshev distance. -/
theorem dinf_pos_of_ne (x1 y1 x2 y2 : ℚ) (h : (x1, y1) ≠ (x2, y2)) :
    0 < dinf x1 y1 x2 y2 := by
  rcases eq_or_ne x1 x2 with hx | hx
  · have hy : y1 ≠ y2 := fun hy => h (by rw [hx, hy])
    exact lt_of_lt_of_le (abs_pos.mpr (sub_ne_zero.mpr hy)) (le_max_right _ _)
  · exact lt_of_lt_of_le (abs_pos.mpr (sub_ne_zero.mpr hx)) (le_max_left _ _)

theorem msum_cons (p : ℚ × ℚ × ℚ) (c : Multiset (ℚ × ℚ × ℚ)) :
    msum (p ::ₘ c) = p.2.2 + msum c := by
  simp [msum]

theorem mxsum_cons (p : ℚ × ℚ × ℚ) (c : Multiset (ℚ × ℚ × ℚ)) :
    mxsum (p ::ₘ c) = p.1 * p.2.2 + mxsum c := by
  simp [mxsum]

theorem mysum_cons (p : ℚ × ℚ × ℚ) (c : Multiset (ℚ × ℚ × ℚ)) :
    mysum (p ::ₘ c) = p.2.1 * p.2.2 + mysum c := by
  simp [mysum]

theorem msum_nonneg (c : Multiset (ℚ × ℚ × ℚ)) (h : ∀ p ∈ c, 0 < p.2.2) :
    0 ≤ msum c := by
  refine Multiset.sum_nonneg ?_
  intro q hq
  obtain ⟨p, hp, rfl⟩ := Multiset.mem_map.mp hq
  exact le_of_lt (h p hp)

/-- A node with `size = 0` (a star in the C discrimination) records
exactly its own `(x, y, mass)`. -/
theorem contents_star (c : QTree) (hne : c ≠ QTree.nil) (hcs : c.size = 0) :
    contents c = {(c.x, c.y, c.mass)} := by
  rcases c with _ | ⟨x, y, m, s, cx, cy, c0, c1, c2, c3⟩
  · exact absurd rfl hne
  · simp only [QTree.size] at hcs
    simp [contents, hcs, QTree.x, QTree.y, QTree.mass]

theorem contents_node_expand (x y m s cx cy : ℚ) (c0 c1 c2 c3 : QTree) (hs : s ≠ 0) :
    contents (.node x y m s cx cy c0 c1 c2 c3) =
      contents c0 + contents c1 + contents c2 + contents c3 := by
  simp [contents, hs]

/-- Fields of a node are unchanged by `setChild`, and the result is a
node. -/
theorem setChild_node_fields (x y m s cx cy : ℚ) (c0 c1 c2 c3 c : QTree) (i : ℕ) :
    (QTree.setChild (.node x y m s cx cy c0 c1 c2 c3) i c).x = x ∧
    (QTree.setChild (.node x y m s cx cy c0 c1 c2 c3) i c).y = y ∧
    (QTree.setChild (.node x y m s cx cy c0 c1 c2 c3) i c).mass = m ∧
    (QTree.setChild (.node x y m s cx cy c0 c1 c2 c3) i c).size = s ∧
    (QTree.setChild (.node x y m s cx cy c0 c1 c2 c3) i c).cx = cx ∧
    (QTree.setChild (.node x y m s cx cy c0 c1 c2 c3) i c).cy = cy ∧
    (QTree.setChild (.node x y m s cx cy c0 c1 c2 c3) i c) ≠ QTree.nil := by
  simp only [QTree.setChild]
  split_ifs <;>
    exact ⟨rfl, rfl, rfl, rfl, rfl, rfl, fun h => QTree.noConfusion h⟩

/-- The multiset bookkeeping of replacing child slot `i`. -/
theorem contents_setChild (x y m s cx cy : ℚ) (c0 c1 c2 c3 c : QTree) (i : ℕ)
    (hs : s ≠ 0) (hi : i < 4) :
    contents (QTree.setChild (.node x y m s cx cy c0 c1 c2 c3) i c) +
      contents (QTree.child (.node x y m s cx cy c0 c1 c2 c3) i) =
    contents (.node x y m s cx cy c0 c1 c2 c3) + contents c := by
  interval_cases i <;>
    simp [QTree.setChild, QTree.child, contents, hs] <;>
    abel

/-- Each child slot content is contained in the node content. -/
theorem mem_contents_child (x y m s cx cy : ℚ) (c0 c1 c2 c3 : QTree) (i : ℕ)
    (hs : s ≠ 0) (p : ℚ × ℚ × ℚ)
    (hp : p ∈ contents (QTree.child (.node x y m s cx cy c0 c1 c2 c3) i)) :
    p ∈ contents (.node x y m s cx cy c0 c1 c2 c3) := by
  rw [contents_node_expand x y m s cx cy c0 c1 c2 c3 hs]
  have hc : QTree.child (.node x y m s cx cy c0 c1 c2 c3) i = c0 ∨
      QTree.child (.node x y m s cx cy c0 c1 c2 c3) i = c1 ∨
      QTree.child (.node x y m s cx cy c0 c1 c2 c3) i = c2 ∨
      QTree.child (.node x y m s cx cy c0 c1 c2 c3) i = c3 := by
    simp only [QTree.child]
    split_ifs <;> simp
  simp only [Multiset.mem_add]
  rcases hc with h | h | h | h <;> rw [h] at hp
  · exact Or.inl (Or.inl (Or.inl hp))
  · exact Or.inl (Or.inl (Or.inr hp))
  · exact Or.inl (Or.inr hp)
  · exact Or.inr hp

theorem InvT_childGeom_of (x y m s cx cy : ℚ) (c0 c1 c2 c3 : QTree)
    (h : InvT (.node x y m s cx cy c0 c1 c2 c3)) (i : ℕ) (hi : i < 4) :
    childGeom s cx cy i (QTree.child (.node x y m s cx cy c0 c1 c2 c3) i) := by
  simp only [InvT] at h
  obtain ⟨-, g0, g1, g2, g3, -, -, -, -⟩ := h
  interval_cases i <;> simpa [QTree.child] using (by assumption)

theorem InvT_child_of (x y m s cx cy : ℚ) (c0 c1 c2 c3 : QTree)
    (h : InvT (.node x y m s cx cy c0 c1 c2 c3)) (i : ℕ) :
    InvT (QTree.child (.node x y m s cx cy c0 c1 c2 c3) i) := by
  simp only [InvT] at h
  obtain ⟨-, -, -, -, -, i0, i1, i2, i3⟩ := h
  simp only [QTree.child]
  split_ifs <;> assumption

theorem TreeOK_child_of (x y m s cx cy : ℚ) (c0 c1 c2 c3 : QTree)
    (h : TreeOK (.node x y m s cx cy c0 c1 c2 c3)) (i : ℕ) :
    TreeOK (QTree.child (.node x y m s cx cy c0 c1 c2 c3) i) := by
  simp only [TreeOK] at h
  obtain ⟨-, t0, t1, t2, t3⟩ := h
  simp only [QTree.child]
  split_ifs <;> assumption

theorem TreeOK_root_NodeOK (x y m s cx cy : ℚ) (c0 c1 c2 c3 : QTree)
    (h : TreeOK (.node x y m s cx cy c0 c1 c2 c3)) :
    NodeOK (.node x y m s cx cy c0 c1 c2 c3) := by
  simp only [TreeOK] at h
  exact h.1

/-- `InvT` does not involve the center-of-mass fields, so the
COM-accumulation step of the builder preserves it. -/
theorem InvT_com_update (qx qy qm nx ny nm s cx cy : ℚ) (c0 c1 c2 c3 : QTree)
    (h : InvT (.node qx qy qm s cx cy c0 c1 c2 c3)) :
    InvT (.node nx ny nm s cx cy c0 c1 c2 c3) := by
  simp only [InvT] at h ⊢
  exact h

theorem InvT_setChild (x y m s cx cy : ℚ) (c0 c1 c2 c3 : QTree) (i : ℕ) (hi : i < 4)
    (c : QTree) (hInv : InvT (.node x y m s cx cy c0 c1 c2 c3)) (hs : s ≠ 0)
    (hg : childGeom s cx cy i c) (hc : InvT c) :
    InvT (QTree.setChild (.node x y m s cx cy c0 c1 c2 c3) i c) := by
  simp only [InvT] at hInv
  obtain ⟨-, g0, g1, g2, g3, i0, i1, i2, i3⟩ := hInv
  interval_cases i <;>
    · simp only [QTree.setChild, InvT]
      norm_num
      refine ⟨fun h => absurd h hs, ?_, ?_, ?_, ?_, ?_, ?_, ?_, ?_⟩ <;> assumption

theorem TreeOK_setChild (x y m s cx cy : ℚ) (c0 c1 c2 c3 : QTree) (i : ℕ) (hi : i < 4)
    (c : QTree) (t0 : TreeOK c0) (t1 : TreeOK c1) (t2 : TreeOK c2) (t3 : TreeOK c3)
    (hc : TreeOK c)
    (hN : NodeOK (QTree.setChild (.node x y m s cx cy c0 c1 c2 c3) i c)) :
    TreeOK (QTree.setChild (.node x y m s cx cy c0 c1 c2 c3) i c) := by
  interval_cases i <;>
    · simp only [QTree.setChild] at hN ⊢
      norm_num at hN ⊢
      simp only [TreeOK]
      refine ⟨hN, ?_, ?_, ?_, ?_⟩ <;> assumption

theorem child_all_nil (x y m s cx cy : ℚ) (i : ℕ) :
    QTree.child (.node x y m s cx cy .nil .nil .nil .nil) i = QTree.nil := by
  simp only [QTree.child]
  split_ifs <;> rfl

theorem star_leaf_props (s : StarS) :
    contents (star_leaf s) = {(s.x, s.y, s.mass)} ∧ (star_leaf s).size = 0 ∧
    (star_leaf s).x = s.x ∧ (star_leaf s).y = s.y ∧ (star_leaf s).mass = s.mass ∧
    star_leaf s ≠ QTree.nil ∧ InvT (star_leaf s) ∧ TreeOK (star_leaf s) := by
  refine ⟨by simp [star_leaf, contents], rfl, rfl, rfl, rfl,
    fun h => QTree.noConfusion h, ?_, ?_⟩
  · simp [star_leaf, InvT, childGeom]
  · simp [star_leaf, TreeOK, NodeOK, contents, msum, mxsum, mysum,
      QTree.mass, QTree.x, QTree.y]

/-- Properties of the freshly split quad of the builder (world.c:248-258):
it inherits the old star's center of mass and mass, has half the parent's
side, the sub-quadrant center, and exactly the old star below it. -/
theorem new_quad_props (qcx qcy qsize : ℚ) (i : ℕ) (c : QTree)
    (hqs : (qsize / 2 : ℚ) ≠ 0)
    (hc : c ≠ QTree.nil) (hcs : c.size = 0) (hInv : InvT c) (hTO : TreeOK c)
    (hin : in_square (sub_cx qcx qsize i) (sub_cy qcy qsize i) (qsize / 2) c.x c.y)
    (nq : QTree)
    (hnq : nq = QTree.setChild (.node c.x c.y c.mass (qsize / 2) (sub_cx qcx qsize i)
      (sub_cy qcy qsize i) .nil .nil .nil .nil)
      (get_quadrant (sub_cx qcx qsize i) (sub_cy qcy qsize i) c.x c.y) c) :
    InvT nq ∧ TreeOK nq ∧ contents nq = contents c ∧ nq.size = qsize / 2 ∧
    nq.cx = sub_cx qcx qsize i ∧ nq.cy = sub_cy qcy qsize i ∧ nq ≠ QTree.nil := by
  have hj4 : get_quadrant (sub_cx qcx qsize i) (sub_cy qcy qsize i) c.x c.y < 4 :=
    quadrant_lt4 _ _ _ _
  have hgeom : childGeom (qsize / 2) (sub_cx qcx qsize i) (sub_cy qcy qsize i)
      (get_quadrant (sub_cx qcx qsize i) (sub_cy qcy qsize i) c.x c.y) c := by
    intro _
    refine ⟨fun _ => ?_, fun hne => absurd hcs hne⟩
    exact in_square_of_quadrant _ _ _ _ _ hin _ rfl
  have hbase : InvT (.node c.x c.y c.mass (qsize / 2) (sub_cx qcx qsize i)
      (sub_cy qcy qsize i) .nil .nil .nil .nil) := by
    simp [InvT, childGeom]
  have hfields := setChild_node_fields c.x c.y c.mass (qsize / 2) (sub_cx qcx qsize i)
    (sub_cy qcy qsize i) .nil .nil .nil .nil c
    (get_quadrant (sub_cx qcx qsize i) (sub_cy qcy qsize i) c.x c.y)
  have hcontents : contents nq = contents c := by
    have h := contents_setChild c.x c.y c.mass (qsize / 2) (sub_cx qcx qsize i)
      (sub_cy qcy qsize i) .nil .nil .nil .nil c
      (get_quadrant (sub_cx qcx qsize i) (sub_cy qcy qsize i) c.x c.y) hqs hj4
    rw [child_all_nil, contents_node_expand _ _ _ _ _ _ _ _ _ _ hqs] at h
    simp only [contents] at h
    rw [← hnq] at h
    simpa using h
  have hNodeOK : NodeOK nq := by
    rw [hnq]
    unfold NodeOK
    rw [← hnq, hcontents, contents_star c hc hcs, hnq]
    rcases hfields with ⟨f1, f2, f3, -⟩
    rw [f1, f2, f3]
    simp [msum, mxsum, mysum]
  refine ⟨?_, ?_, hcontents, ?_, ?_, ?_, ?_⟩
  · rw [hnq]
    exact InvT_setChild _ _ _ _ _ _ _ _ _ _ _ hj4 c hbase hqs hgeom hInv
  · rw [hnq]
    refine TreeOK_setChild _ _ _ _ _ _ _ _ _ _ _ hj4 c trivial trivial trivial trivial hTO ?_
    rw [← hnq]
    exact hNodeOK
  · rw [hnq]; exact hfields.2.2.2.1
  · rw [hnq]; exact hfields.2.2.2.2.1
  · rw [hnq]; exact hfields.2.2.2.2.2.1
  · rw [hnq]; exact hfields.2.2.2.2.2.2

theorem contents_nil : contents QTree.nil = 0 := rfl

/-- `child` reads only the children, not the node payload. -/
theorem child_node_congr (x y m s cx cy x2 y2 m2 s2 cx2 cy2 : ℚ)
    (c0 c1 c2 c3 : QTree) (i : ℕ) :
    QTree.child (.node x y m s cx cy c0 c1 c2 c3) i =
      QTree.child (.node x2 y2 m2 s2 cx2 cy2 c0 c1 c2 c3) i := by
  simp only [QTree.child]

/-- Equation for one builder-loop iteration hitting an empty child slot
(world.c:245-246): fold the star into the COM, store it in the slot. -/
theorem insert_star_eq_empty (s : StarS) (fuel : ℕ) (qx qy qm qsize qcx qcy : ℚ)
    (c0 c1 c2 c3 : QTree)
    (hch : QTree.child (.node qx qy qm qsize qcx qcy c0 c1 c2 c3)
        (get_quadrant qcx qcy s.x s.y) = QTree.nil) :
    insert_star s (fuel + 1) (.node qx qy qm qsize qcx qcy c0 c1 c2 c3) =
      some (QTree.setChild
        (.node ((qx * qm + s.x * s.mass) / (qm + s.mass))
          ((qy * qm + s.y * s.mass) / (qm + s.mass)) (qm + s.mass) qsize qcx qcy
          c0 c1 c2 c3)
        (get_quadrant qcx qcy s.x s.y) (star_leaf s), 0) := by
  have hch2 : QTree.child (.node ((qx * qm + s.x * s.mass) / (qm + s.mass))
      ((qy * qm + s.y * s.mass) / (qm + s.mass)) (qm + s.mass) qsize qcx qcy
      c0 c1 c2 c3) (get_quadrant qcx qcy s.x s.y) = QTree.nil := by
    rw [← hch]; simp only [QTree.child]
  simp only [insert_star]
  rw [if_pos hch2]

/-- Equation for one builder-loop iteration hitting a star occupant with
a nonzero half-size (world.c:247-259 then looping into the new quad). -/
theorem insert_star_eq_split (s : StarS) (fuel : ℕ) (qx qy qm qsize qcx qcy : ℚ)
    (c0 c1 c2 c3 : QTree) (ex ey em ecx ecy : ℚ) (e0 e1 e2 e3 : QTree)
    (hch : QTree.child (.node qx qy qm qsize qcx qcy c0 c1 c2 c3)
        (get_quadrant qcx qcy s.x s.y) = .node ex ey em 0 ecx ecy e0 e1 e2 e3)
    (hq2 : (qsize / 2 : ℚ) ≠ 0) :
    insert_star s (fuel + 1) (.node qx qy qm qsize qcx qcy c0 c1 c2 c3) =
      Option.map (fun z => (QTree.setChild
          (.node ((qx * qm + s.x * s.mass) / (qm + s.mass))
            ((qy * qm + s.y * s.mass) / (qm + s.mass)) (qm + s.mass) qsize qcx qcy
            c0 c1 c2 c3) (get_quadrant qcx qcy s.x s.y) z.1, z.2 + 1))
        (insert_star s fuel (QTree.setChild
          (.node ex ey em (qsize / 2)
            (sub_cx qcx qsize (get_quadrant qcx qcy s.x s.y))
            (sub_cy qcy qsize (get_quadrant qcx qcy s.x s.y)) .nil .nil .nil .nil)
          (get_quadrant (sub_cx qcx qsize (get_quadrant qcx qcy s.x s.y))
            (sub_cy qcy qsize (get_quadrant qcx qcy s.x s.y)) ex ey)
          (.node ex ey em 0 ecx ecy e0 e1 e2 e3))) := by
  have hch2 : QTree.child (.node ((qx * qm + s.x * s.mass) / (qm + s.mass))
      ((qy * qm + s.y * s.mass) / (qm + s.mass)) (qm + s.mass) qsize qcx qcy
      c0 c1 c2 c3) (get_quadrant qcx qcy s.x s.y) =
      .node ex ey em 0 ecx ecy e0 e1 e2 e3 := by
    rw [← hch]; simp only [QTree.child]
  simp only [insert_star]
  rw [hch2, if_neg (fun h => QTree.noConfusion h)]
  simp only [QTree.size, QTree.x, QTree.y, QTree.mass]
  simp only [if_true]
  rw [if_pos hq2]

/-- Equation for the star-occupant case when the new quad's size is zero
(possible only for a degenerate zero-size parent): the loop exits after
the split without re-descending. -/
theorem insert_star_eq_split_stop (s : StarS) (fuel : ℕ) (qx qy qm qsize qcx qcy : ℚ)
    (c0 c1 c2 c3 : QTree) (ex ey em ecx ecy : ℚ) (e0 e1 e2 e3 : QTree)
    (hch : QTree.child (.node qx qy qm qsize qcx qcy c0 c1 c2 c3)
        (get_quadrant qcx qcy s.x s.y) = .node ex ey em 0 ecx ecy e0 e1 e2 e3)
    (hq2 : ¬ ((qsize / 2 : ℚ) ≠ 0)) :
    insert_star s (fuel + 1) (.node qx qy qm qsize qcx qcy c0 c1 c2 c3) =
      some (QTree.setChild
        (.node ((qx * qm + s.x * s.mass) / (qm + s.mass))
          ((qy * qm + s.y * s.mass) / (qm + s.mass)) (qm + s.mass) qsize qcx qcy
          c0 c1 c2 c3) (get_quadrant qcx qcy s.x s.y)
        (QTree.setChild
          (.node ex ey em (qsize / 2)
            (sub_cx qcx qsize (get_quadrant qcx qcy s.x s.y))
            (sub_cy qcy qsize (get_quadrant qcx qcy s.x s.y)) .nil .nil .nil .nil)
          (get_quadrant (sub_cx qcx qsize (get_quadrant qcx qcy s.x s.y))
            (sub_cy qcy qsize (get_quadrant qcx qcy s.x s.y)) ex ey)
          (.node ex ey em 0 ecx ecy e0 e1 e2 e3)), 1) := by
  have hch2 : QTree.child (.node ((qx * qm + s.x * s.mass) / (qm + s.mass))
      ((qy * qm + s.y * s.mass) / (qm + s.mass)) (qm + s.mass) qsize qcx qcy
      c0 c1 c2 c3) (get_quadrant qcx qcy s.x s.y) =
      .node ex ey em 0 ecx ecy e0 e1 e2 e3 := by
    rw [← hch]; simp only [QTree.child]
  simp only [insert_star]
  rw [hch2, if_neg (fun h => QTree.noConfusion h)]
  simp only [QTree.size, QTree.x, QTree.y, QTree.mass]
  simp only [if_true]
  rw [if_neg hq2]

/-- Equation for one builder-loop iteration descending into an interior
quad occupant (world.c:261, looping). -/
theorem insert_star_eq_descend (s : StarS) (fuel : ℕ) (qx qy qm qsize qcx qcy : ℚ)
    (c0 c1 c2 c3 : QTree) (ex ey em es ecx ecy : ℚ) (e0 e1 e2 e3 : QTree)
    (hch : QTree.child (.node qx qy qm qsize qcx qcy c0 c1 c2 c3)
        (get_quadrant qcx qcy s.x s.y) = .node ex ey em es ecx ecy e0 e1 e2 e3)
    (hes : es ≠ 0) :
    insert_star s (fuel + 1) (.node qx qy qm qsize qcx qcy c0 c1 c2 c3) =
      Option.map (fun z => (QTree.setChild
          (.node ((qx * qm + s.x * s.mass) / (qm + s.mass))
            ((qy * qm + s.y * s.mass) / (qm + s.mass)) (qm + s.mass) qsize qcx qcy
            c0 c1 c2 c3) (get_quadrant qcx qcy s.x s.y) z.1, z.2))
        (insert_star s fuel (.node ex ey em es ecx ecy e0 e1 e2 e3)) := by
  have hch2 : QTree.child (.node ((qx * qm + s.x * s.mass) / (qm + s.mass))
      ((qy * qm + s.y * s.mass) / (qm + s.mass)) (qm + s.mass) qsize qcx qcy
      c0 c1 c2 c3) (get_quadrant qcx qcy s.x s.y) =
      .node ex ey em es ecx ecy e0 e1 e2 e3 := by
    rw [← hch]; simp only [QTree.child]
  simp only [insert_star]
  rw [hch2, if_neg (fun h => QTree.noConfusion h)]
  simp only [QTree.size]
  rw [if_neg hes]

/-- Shared final step of one builder-loop iteration: replacing child
slot `i` of the COM-updated quad by a subtree `X` that now also records
the inserted star preserves all build invariants and adds the star to
the recorded contents. -/
theorem updated_root_props (s : StarS) (qx qy qm qsize qcx qcy : ℚ)
    (c0 c1 c2 c3 : QTree) (i : ℕ) (hi : i < 4) (X : QTree)
    (hqsne : qsize ≠ 0)
    (hInv : InvT (.node qx qy qm qsize qcx qcy c0 c1 c2 c3))
    (hTO : TreeOK (.node qx qy qm qsize qcx qcy c0 c1 c2 c3))
    (hPM : PosMass (.node qx qy qm qsize qcx qcy c0 c1 c2 c3))
    (hm : 0 < s.mass)
    (hgX : childGeom qsize qcx qcy i X) (hIX : InvT X) (hTX : TreeOK X)
    (hCX : contents X = (s.x, s.y, s.mass) ::ₘ
      contents (QTree.child (.node qx qy qm qsize qcx qcy c0 c1 c2 c3) i)) :
    InvT (QTree.setChild (.node ((qx * qm + s.x * s.mass) / (qm + s.mass))
        ((qy * qm + s.y * s.mass) / (qm + s.mass)) (qm + s.mass) qsize qcx qcy
        c0 c1 c2 c3) i X) ∧
    TreeOK (QTree.setChild (.node ((qx * qm + s.x * s.mass) / (qm + s.mass))
        ((qy * qm + s.y * s.mass) / (qm + s.mass)) (qm + s.mass) qsize qcx qcy
        c0 c1 c2 c3) i X) ∧
    PosMass (QTree.setChild (.node ((qx * qm + s.x * s.mass) / (qm + s.mass))
        ((qy * qm + s.y * s.mass) / (qm + s.mass)) (qm + s.mass) qsize qcx qcy
        c0 c1 c2 c3) i X) ∧
    (QTree.setChild (.node ((qx * qm + s.x * s.mass) / (qm + s.mass))
        ((qy * qm + s.y * s.mass) / (qm + s.mass)) (qm + s.mass) qsize qcx qcy
        c0 c1 c2 c3) i X).size = qsize ∧
    (QTree.setChild (.node ((qx * qm + s.x * s.mass) / (qm + s.mass))
        ((qy * qm + s.y * s.mass) / (qm + s.mass)) (qm + s.mass) qsize qcx qcy
        c0 c1 c2 c3) i X).cx = qcx ∧
    (QTree.setChild (.node ((qx * qm + s.x * s.mass) / (qm + s.mass))
        ((qy * qm + s.y * s.mass) / (qm + s.mass)) (qm + s.mass) qsize qcx qcy
        c0 c1 c2 c3) i X).cy = qcy ∧
    QTree.setChild (.node ((qx * qm + s.x * s.mass) / (qm + s.mass))
        ((qy * qm + s.y * s.mass) / (qm + s.mass)) (qm + s.mass) qsize qcx qcy
        c0 c1 c2 c3) i X ≠ QTree.nil ∧
    contents (QTree.setChild (.node ((qx * qm + s.x * s.mass) / (qm + s.mass))
        ((qy * qm + s.y * s.mass) / (qm + s.mass)) (qm + s.mass) qsize qcx qcy
        c0 c1 c2 c3) i X) =
      (s.x, s.y, s.mass) ::ₘ contents (.node qx qy qm qsize qcx qcy c0 c1 c2 c3) := by
  obtain ⟨f1, f2, f3, f4, f5, f6, f7⟩ := setChild_node_fields
    ((qx * qm + s.x * s.mass) / (qm + s.mass))
    ((qy * qm + s.y * s.mass) / (qm + s.mass)) (qm + s.mass) qsize qcx qcy
    c0 c1 c2 c3 X i
  have hcsum := contents_setChild ((qx * qm + s.x * s.mass) / (qm + s.mass))
    ((qy * qm + s.y * s.mass) / (qm + s.mass)) (qm + s.mass) qsize qcx qcy
    c0 c1 c2 c3 X i hqsne hi
  rw [child_node_congr ((qx * qm + s.x * s.mass) / (qm + s.mass))
    ((qy * qm + s.y * s.mass) / (qm + s.mass)) (qm + s.mass) qsize qcx qcy
    qx qy qm qsize qcx qcy c0 c1 c2 c3 i] at hcsum
  have hcq1 : contents (QTree.node ((qx * qm + s.x * s.mass) / (qm + s.mass))
      ((qy * qm + s.y * s.mass) / (qm + s.mass)) (qm + s.mass) qsize qcx qcy
      c0 c1 c2 c3) = contents (.node qx qy qm qsize qcx qcy c0 c1 c2 c3) := by
    rw [contents_node_expand _ _ _ _ _ _ _ _ _ _ hqsne,
      contents_node_expand _ _ _ _ _ _ _ _ _ _ hqsne]
  rw [hcq1, hCX] at hcsum
  have hcontents : contents (QTree.setChild
      (.node ((qx * qm + s.x * s.mass) / (qm + s.mass))
        ((qy * qm + s.y * s.mass) / (qm + s.mass)) (qm + s.mass) qsize qcx qcy
        c0 c1 c2 c3) i X) =
      (s.x, s.y, s.mass) ::ₘ contents (.node qx qy qm qsize qcx qcy c0 c1 c2 c3) := by
    refine add_right_cancel (b := contents (QTree.child
      (.node qx qy qm qsize qcx qcy c0 c1 c2 c3) i)) ?_
    rw [hcsum, ← Multiset.singleton_add, ← Multiset.singleton_add]
    abel
  have hNroot := TreeOK_root_NodeOK _ _ _ _ _ _ _ _ _ _ hTO
  have hqm : qm = msum (contents (QTree.node qx qy qm qsize qcx qcy c0 c1 c2 c3)) := by
    simpa [QTree.mass] using hNroot.1
  have hqx : qx * qm = mxsum (contents (QTree.node qx qy qm qsize qcx qcy c0 c1 c2 c3)) := by
    simpa [QTree.x, QTree.mass] using hNroot.2.1
  have hqy : qy * qm = mysum (contents (QTree.node qx qy qm qsize qcx qcy c0 c1 c2 c3)) := by
    simpa [QTree.y, QTree.mass] using hNroot.2.2
  have hms0 : 0 ≤ qm := by
    rw [hqm]; exact msum_nonneg _ hPM
  have hmsne : qm + s.mass ≠ 0 := ne_of_gt (by linarith)
  have hN : NodeOK (QTree.setChild (.node ((qx * qm + s.x * s.mass) / (qm + s.mass))
      ((qy * qm + s.y * s.mass) / (qm + s.mass)) (qm + s.mass) qsize qcx qcy
      c0 c1 c2 c3) i X) := by
    unfold NodeOK
    rw [f1, f2, f3, hcontents, msum_cons, mxsum_cons, mysum_cons]
    refine ⟨by rw [← hqm]; ring, ?_, ?_⟩
    · rw [div_mul_cancel₀ _ hmsne, ← hqx]; ring
    · rw [div_mul_cancel₀ _ hmsne, ← hqy]; ring
  refine ⟨?_, ?_, ?_, f4, f5, f6, f7, hcontents⟩
  · exact InvT_setChild _ _ _ _ _ _ c0 c1 c2 c3 i hi X
      (InvT_com_update qx qy qm _ _ _ qsize qcx qcy c0 c1 c2 c3 hInv) hqsne hgX hIX
  · have hTOc := hTO
    simp only [TreeOK] at hTOc
    obtain ⟨-, t0, t1, t2, t3⟩ := hTOc
    exact TreeOK_setChild _ _ _ _ _ _ c0 c1 c2 c3 i hi X t0 t1 t2 t3 hTX hN
  · intro p hp
    rw [hcontents] at hp
    rcases Multiset.mem_cons.mp hp with rfl | hp2
    · exact hm
    · exact hPM p hp2

/-- Preservation of the build invariants by one star insertion: if the
loop of world.c:238-262 terminates on a quad `q` with positive size that
satisfies the structural and COM invariants, with the star inside `q`'s
square and all masses positive, then the result satisfies them as well,
keeps `q`'s geometry, and records exactly one more star. -/
theorem insert_spec : ∀ (fuel : ℕ) (s : StarS) (q r : QTree) (k : ℕ),
    insert_star s fuel q = some (r, k) →
    InvT q → 0 < q.size → in_square q.cx q.cy q.size s.x s.y →
    TreeOK q → PosMass q → 0 < s.mass →
    InvT r ∧ TreeOK r ∧ PosMass r ∧ r.size = q.size ∧ r.cx = q.cx ∧ r.cy = q.cy ∧
      r ≠ QTree.nil ∧ contents r = (s.x, s.y, s.mass) ::ₘ contents q := by
  intro fuel
  induction fuel with
  | zero =>
    intro s q r k h
    exact absurd h (by simp [insert_star])
  | succ fuel ih =>
    intro s q r k h hInv hsz hin hTO hPM hm
    rcases q with _ | ⟨qx, qy, qm, qsize, qcx, qcy, c0, c1, c2, c3⟩
    · exact absurd hsz (by simp [QTree.size])
    simp only [QTree.size, QTree.cx, QTree.cy] at hsz hin
    have hqsne : qsize ≠ 0 := ne_of_gt hsz
    have hi4 : get_quadrant qcx qcy s.x s.y < 4 := quadrant_lt4 qcx qcy s.x s.y
    have hgeom := InvT_childGeom_of qx qy qm qsize qcx qcy c0 c1 c2 c3 hInv
      (get_quadrant qcx qcy s.x s.y) hi4
    have hIc := InvT_child_of qx qy qm qsize qcx qcy c0 c1 c2 c3 hInv
      (get_quadrant qcx qcy s.x s.y)
    have hTc := TreeOK_child_of qx qy qm qsize qcx qcy c0 c1 c2 c3 hTO
      (get_quadrant qcx qcy s.x s.y)
    rcases hch : QTree.child (.node qx qy qm qsize qcx qcy c0 c1 c2 c3)
        (get_quadrant qcx qcy s.x s.y) with _ |
        ⟨ex, ey, em, es, ecx, ecy, e0, e1, e2, e3⟩
    · -- empty slot: the star becomes a new leaf
      rw [insert_star_eq_empty s fuel qx qy qm qsize qcx qcy c0 c1 c2 c3 hch] at h
      simp only [Option.some.injEq, Prod.mk.injEq] at h
      obtain ⟨hr, -⟩ := h
      subst hr
      obtain ⟨sl1, sl2, -, -, -, -, sl7, sl8⟩ := star_leaf_props s
      have hgX : childGeom qsize qcx qcy (get_quadrant qcx qcy s.x s.y) (star_leaf s) := by
        intro _
        refine ⟨fun _ => ?_, fun hne => absurd sl2 hne⟩
        have hsub := in_square_of_quadrant qcx qcy qsize s.x s.y hin _ rfl
        simpa [star_leaf, QTree.x, QTree.y] using hsub
      have hCX : contents (star_leaf s) = (s.x, s.y, s.mass) ::ₘ
          contents (QTree.child (.node qx qy qm qsize qcx qcy c0 c1 c2 c3)
            (get_quadrant qcx qcy s.x s.y)) := by
        rw [hch, contents_nil, sl1, Multiset.cons_zero]
      exact updated_root_props s qx qy qm qsize qcx qcy c0 c1 c2 c3 _ hi4
        (star_leaf s) hqsne hInv hTO hPM hm hgX sl7 sl8 hCX
    · rw [hch] at hgeom hIc hTc
      have hcne : (QTree.node ex ey em es ecx ecy e0 e1 e2 e3) ≠ QTree.nil :=
        fun hx => QTree.noConfusion hx
      have hPMc : PosMass (QTree.node ex ey em es ecx ecy e0 e1 e2 e3) := by
        intro p hp
        refine hPM p (mem_contents_child qx qy qm qsize qcx qcy c0 c1 c2 c3
          (get_quadrant qcx qcy s.x s.y) hqsne p ?_)
        rw [hch]
        exact hp
      by_cases hes : es = 0
      · -- occupied by a star: split, then continue into the new quad
        subst hes
        have hq2 : (qsize / 2 : ℚ) ≠ 0 := fun h0 => hqsne (by
          rcases div_eq_zero_iff.mp h0 with h1 | h1
          · exact h1
          · exact absurd h1 (by norm_num))
        rw [insert_star_eq_split s fuel qx qy qm qsize qcx qcy c0 c1 c2 c3
          ex ey em ecx ecy e0 e1 e2 e3 hch hq2] at h
        obtain ⟨⟨nq2, kk⟩, hrec, hz⟩ := Option.map_eq_some'.mp h
        simp only [Prod.mk.injEq] at hz
        obtain ⟨hr, -⟩ := hz
        subst hr
        have hinsub : in_square (sub_cx qcx qsize (get_quadrant qcx qcy s.x s.y))
            (sub_cy qcy qsize (get_quadrant qcx qcy s.x s.y)) (qsize / 2)
            (QTree.node ex ey em 0 ecx ecy e0 e1 e2 e3).x
            (QTree.node ex ey em 0 ecx ecy e0 e1 e2 e3).y :=
          (hgeom hcne).1 rfl
        have hnqp := new_quad_props qcx qcy qsize (get_quadrant qcx qcy s.x s.y)
          (QTree.node ex ey em 0 ecx ecy e0 e1 e2 e3) hq2 hcne rfl hIc hTc hinsub _ rfl
        simp only [QTree.x, QTree.y, QTree.mass] at hnqp hrec
        obtain ⟨hnqI, hnqT, hnqC, hnqS, hnqX, hnqY, hnqN⟩ := hnqp
        have hnqPM : PosMass (QTree.setChild
            (.node ex ey em (qsize / 2)
              (sub_cx qcx qsize (get_quadrant qcx qcy s.x s.y))
              (sub_cy qcy qsize (get_quadrant qcx qcy s.x s.y)) .nil .nil .nil .nil)
            (get_quadrant (sub_cx qcx qsize (get_quadrant qcx qcy s.x s.y))
              (sub_cy qcy qsize (get_quadrant qcx qcy s.x s.y)) ex ey)
            (.node ex ey em 0 ecx ecy e0 e1 e2 e3)) := by
          intro p hp
          rw [hnqC] at hp
          exact hPMc p hp
        have hih := ih s _ nq2 kk hrec hnqI (by rw [hnqS]; exact half_pos hsz)
          (by rw [hnqX, hnqY, hnqS]
              exact in_square_of_quadrant qcx qcy qsize s.x s.y hin _ rfl)
          hnqT hnqPM hm
        obtain ⟨ihI, ihT, ihPM, ihS, ihX, ihY, ihN, ihC⟩ := hih
        rw [hnqS] at ihS
        rw [hnqX] at ihX
        rw [hnqY] at ihY
        have hgX : childGeom qsize qcx qcy (get_quadrant qcx qcy s.x s.y) nq2 := by
          intro _
          refine ⟨fun h0 => absurd (ihS ▸ h0) hq2, fun _ => ⟨ihS, ihX, ihY⟩⟩
        have hCX : contents nq2 = (s.x, s.y, s.mass) ::ₘ
            contents (QTree.child (.node qx qy qm qsize qcx qcy c0 c1 c2 c3)
              (get_quadrant qcx qcy s.x s.y)) := by
          rw [ihC, hnqC, hch]
        exact updated_root_props s qx qy qm qsize qcx qcy c0 c1 c2 c3 _ hi4
          nq2 hqsne hInv hTO hPM hm hgX ihI ihT hCX
      · -- occupied by an interior quad: descend
        rw [insert_star_eq_descend s fuel qx qy qm qsize qcx qcy c0 c1 c2 c3
          ex ey em es ecx ecy e0 e1 e2 e3 hch hes] at h
        obtain ⟨⟨c2r, kk⟩, hrec, hz⟩ := Option.map_eq_some'.mp h
        simp only [Prod.mk.injEq] at hz
        obtain ⟨hr, -⟩ := hz
        subst hr
        have hesz : (QTree.node ex ey em es ecx ecy e0 e1 e2 e3).size ≠ 0 := by
          simpa [QTree.size] using hes
        obtain ⟨hgs, hgx, hgy⟩ := (hgeom hcne).2 hesz
        have hih := ih s _ c2r kk hrec hIc
          (by rw [hgs]; exact half_pos hsz)
          (by rw [hgx, hgy, hgs]
              exact in_square_of_quadrant qcx qcy qsize s.x s.y hin _ rfl)
          hTc hPMc hm
        obtain ⟨ihI, ihT, ihPM, ihS, ihX, ihY, ihN, ihC⟩ := hih
        rw [hgs] at ihS
        rw [hgx] at ihX
        rw [hgy] at ihY
        have hq2 : (qsize / 2 : ℚ) ≠ 0 := fun h0 => hqsne (by
          rcases div_eq_zero_iff.mp h0 with h1 | h1
          · exact h1
          · exact absurd h1 (by norm_num))
        have hgX : childGeom qsize qcx qcy (get_quadrant qcx qcy s.x s.y) c2r := by
          intro _
          refine ⟨fun h0 => absurd (ihS ▸ h0) hq2, fun _ => ⟨ihS, ihX, ihY⟩⟩
        have hCX : contents c2r = (s.x, s.y, s.mass) ::ₘ
            contents (QTree.child (.node qx qy qm qsize qcx qcy c0 c1 c2 c3)
              (get_quadrant qcx qcy s.x s.y)) := by
          rw [ihC, hch]
        exact updated_root_props s qx qy qm qsize qcx qcy c0 c1 c2 c3 _ hi4
          c2r hqsne hInv hTO hPM hm hgX ihI ihT hCX

/-- More fuel never changes a successful insertion. -/
theorem insert_star_mono : ∀ (fuel : ℕ) (s : StarS) (q : QTree) (res : QTree × ℕ),
    insert_star s fuel q = some res → insert_star s (fuel + 1) q = some res := by
  intro fuel
  induction fuel with
  | zero => intro s q res h; exact absurd h (by simp [insert_star])
  | succ fuel ih =>
    intro s q res h
    rcases q with _ | ⟨qx, qy, qm, qsize, qcx, qcy, c0, c1, c2, c3⟩
    · simp [insert_star] at h
    rcases hch : QTree.child (.node qx qy qm qsize qcx qcy c0 c1 c2 c3)
        (get_quadrant qcx qcy s.x s.y) with _ |
        ⟨ex, ey, em, es, ecx, ecy, e0, e1, e2, e3⟩
    · rw [insert_star_eq_empty s fuel qx qy qm qsize qcx qcy c0 c1 c2 c3 hch] at h
      rw [insert_star_eq_empty s (fuel + 1) qx qy qm qsize qcx qcy c0 c1 c2 c3 hch]
      exact h
    · by_cases hes : es = 0
      · subst hes
        by_cases hq2 : (qsize / 2 : ℚ) ≠ 0
        · rw [insert_star_eq_split s fuel qx qy qm qsize qcx qcy c0 c1 c2 c3
            ex ey em ecx ecy e0 e1 e2 e3 hch hq2] at h
          rw [insert_star_eq_split s (fuel + 1) qx qy qm qsize qcx qcy c0 c1 c2 c3
            ex ey em ecx ecy e0 e1 e2 e3 hch hq2]
          obtain ⟨z, hrec, hz⟩ := Option.map_eq_some'.mp h
          rw [ih s _ z hrec]
          simp [hz]
        · rw [insert_star_eq_split_stop s fuel qx qy qm qsize qcx qcy c0 c1 c2 c3
            ex ey em ecx ecy e0 e1 e2 e3 hch hq2] at h
          rw [insert_star_eq_split_stop s (fuel + 1) qx qy qm qsize qcx qcy c0 c1 c2 c3
            ex ey em ecx ecy e0 e1 e2 e3 hch hq2]
          exact h
      · rw [insert_star_eq_descend s fuel qx qy qm qsize qcx qcy c0 c1 c2 c3
          ex ey em es ecx ecy e0 e1 e2 e3 hch hes] at h
        rw [insert_star_eq_descend s (fuel + 1) qx qy qm qsize qcx qcy c0 c1 c2 c3
          ex ey em es ecx ecy e0 e1 e2 e3 hch hes]
        obtain ⟨z, hrec, hz⟩ := Option.map_eq_some'.mp h
        rw [ih s _ z hrec]
        simp [hz]

theorem insert_star_mono_le (s : StarS) (q : QTree) (res : QTree × ℕ)
    (f1 f2 : ℕ) (hle : f1 ≤ f2) (h : insert_star s f1 q = some res) :
    insert_star s f2 q = some res := by
  induction hle with
  | refl => exact h
  | step _ ih2 => exact insert_star_mono _ s q res ih2

theorem dinf_nonneg (a b c d : ℚ) : 0 ≤ dinf a b c d :=
  le_trans (abs_nonneg _) (le_max_left _ _)

theorem numNodes_node_pos (x y m s cx cy : ℚ) (c0 c1 c2 c3 : QTree) :
    1 ≤ (QTree.node x y m s cx cy c0 c1 c2 c3).numNodes := by
  simp only [QTree.numNodes]
  omega

theorem numNodes_child_lt (x y m s cx cy : ℚ) (c0 c1 c2 c3 : QTree) (i : ℕ) :
    (QTree.child (.node x y m s cx cy c0 c1 c2 c3) i).numNodes <
      (QTree.node x y m s cx cy c0 c1 c2 c3).numNodes := by
  simp only [QTree.child]
  split_ifs <;> simp only [QTree.numNodes] <;> omega

theorem numNodes_ge_two (x y m s cx cy : ℚ) (c0 c1 c2 c3 : QTree) (i : ℕ)
    (h : QTree.child (.node x y m s cx cy c0 c1 c2 c3) i ≠ QTree.nil) :
    2 ≤ (QTree.node x y m s cx cy c0 c1 c2 c3).numNodes := by
  have h2 := numNodes_child_lt x y m s cx cy c0 c1 c2 c3 i
  rcases hc : QTree.child (.node x y m s cx cy c0 c1 c2 c3) i with _ |
      ⟨ex, ey, em, es, ecx, ecy, e0, e1, e2, e3⟩
  · exact absurd hc h
  · rw [hc] at h2
    have := numNodes_node_pos ex ey em es ecx ecy e0 e1 e2 e3
    omega

/-- Termination of one insertion: with the structural invariant, the
star inside the quad's square, and a level `k` at which the strictly
halving quads must separate the star from everything already recorded,
the loop of world.c:238-262 finishes with some finite fuel. -/
theorem insert_exists : ∀ (bound k : ℕ) (q : QTree) (s : StarS),
    k + q.numNodes ≤ bound →
    InvT q → 0 < q.size → in_square q.cx q.cy q.size s.x s.y →
    (∀ p ∈ contents q, q.size < 2 ^ k * dinf s.x s.y p.1 p.2.1) →
    ∃ fuel res, insert_star s fuel q = some res := by
  intro bound
  induction bound with
  | zero =>
    intro k q s hb hInv hsz _ _
    rcases q with _ | ⟨qx, qy, qm, qsize, qcx, qcy, c0, c1, c2, c3⟩
    · exact absurd hsz (by simp [QTree.size])
    · have := numNodes_node_pos qx qy qm qsize qcx qcy c0 c1 c2 c3
      omega
  | succ bound ih =>
    intro k q s hb hInv hsz hin hd
    rcases q with _ | ⟨qx, qy, qm, qsize, qcx, qcy, c0, c1, c2, c3⟩
    · exact absurd hsz (by simp [QTree.size])
    simp only [QTree.size, QTree.cx, QTree.cy] at hsz hin hd
    have hqsne : qsize ≠ 0 := ne_of_gt hsz
    have hq2 : (qsize / 2 : ℚ) ≠ 0 := fun h0 => hqsne (by
      rcases div_eq_zero_iff.mp h0 with h1 | h1
      · exact h1
      · exact absurd h1 (by norm_num))
    have hi4 : get_quadrant qcx qcy s.x s.y < 4 := quadrant_lt4 qcx qcy s.x s.y
    have hgeom := InvT_childGeom_of qx qy qm qsize qcx qcy c0 c1 c2 c3 hInv
      (get_quadrant qcx qcy s.x s.y) hi4
    have hIc := InvT_child_of qx qy qm qsize qcx qcy c0 c1 c2 c3 hInv
      (get_quadrant qcx qcy s.x s.y)
    rcases hch : QTree.child (.node qx qy qm qsize qcx qcy c0 c1 c2 c3)
        (get_quadrant qcx qcy s.x s.y) with _ |
        ⟨ex, ey, em, es, ecx, ecy, e0, e1, e2, e3⟩
    · exact ⟨1, _, insert_star_eq_empty s 0 qx qy qm qsize qcx qcy c0 c1 c2 c3 hch⟩
    · rw [hch] at hgeom hIc
      have hcne : (QTree.node ex ey em es ecx ecy e0 e1 e2 e3) ≠ QTree.nil :=
        fun hx => QTree.noConfusion hx
      by_cases hes : es = 0
      · -- star occupant: the old star is recorded in the quad, so the
        -- separation hypothesis bounds the remaining split depth
        subst hes
        -- the size-0 occupant has no children (structural invariant)
        have hnilc : e0 = QTree.nil ∧ e1 = QTree.nil ∧ e2 = QTree.nil ∧ e3 = QTree.nil := by
          have hIc2 := hIc
          simp only [InvT] at hIc2
          exact hIc2.1 trivial
        obtain ⟨rfl, rfl, rfl, rfl⟩ := hnilc
        have hmem : ((ex : ℚ), (ey : ℚ), (em : ℚ)) ∈
            contents (QTree.node qx qy qm qsize qcx qcy c0 c1 c2 c3) := by
          refine mem_contents_child qx qy qm qsize qcx qcy c0 c1 c2 c3
            (get_quadrant qcx qcy s.x s.y) hqsne _ ?_
          rw [hch, contents_star _ hcne rfl]
          simp [QTree.x, QTree.y, QTree.mass]
        have hdc := hd (ex, ey, em) hmem
        have hinsub : in_square (sub_cx qcx qsize (get_quadrant qcx qcy s.x s.y))
            (sub_cy qcy qsize (get_quadrant qcx qcy s.x s.y)) (qsize / 2) ex ey := by
          have h0 := (hgeom hcne).1 rfl
          simpa [QTree.x, QTree.y] using h0
        have hexy : in_square qcx qcy qsize ex ey :=
          square_of_sub_square qcx qcy qsize ex ey _ (le_of_lt hsz) hinsub
        have hdle : dinf s.x s.y ex ey ≤ qsize :=
          dinf_le_of_in_square qcx qcy qsize s.x s.y ex ey hin hexy
        rcases k with _ | k
        · rw [pow_zero, one_mul] at hdc
          exact absurd hdc (not_lt.mpr hdle)
        · -- split and recurse into the fresh half-size quad at level k
          have hTc : TreeOK (QTree.node ex ey em 0 ecx ecy
              QTree.nil QTree.nil QTree.nil QTree.nil) := by
            simp [TreeOK, NodeOK, contents, msum, mxsum, mysum,
              QTree.x, QTree.y, QTree.mass]
          have hnqp := new_quad_props qcx qcy qsize (get_quadrant qcx qcy s.x s.y)
            (QTree.node ex ey em 0 ecx ecy QTree.nil QTree.nil QTree.nil QTree.nil)
            hq2 hcne rfl hIc hTc hinsub _ rfl
          simp only [QTree.x, QTree.y, QTree.mass] at hnqp
          obtain ⟨hnqI, -, hnqC, hnqS, hnqX, hnqY, -⟩ := hnqp
          have hnn : (QTree.setChild
              (.node ex ey em (qsize / 2)
                (sub_cx qcx qsize (get_quadrant qcx qcy s.x s.y))
                (sub_cy qcy qsize (get_quadrant qcx qcy s.x s.y))
                .nil .nil .nil .nil)
              (get_quadrant (sub_cx qcx qsize (get_quadrant qcx qcy s.x s.y))
                (sub_cy qcy qsize (get_quadrant qcx qcy s.x s.y)) ex ey)
              (.node ex ey em 0 ecx ecy .nil .nil .nil .nil)).numNodes = 2 := by
            have hj4 : get_quadrant (sub_cx qcx qsize (get_quadrant qcx qcy s.x s.y))
                (sub_cy qcy qsize (get_quadrant qcx qcy s.x s.y)) ex ey < 4 :=
              quadrant_lt4 _ _ _ _
            generalize get_quadrant (sub_cx qcx qsize (get_quadrant qcx qcy s.x s.y))
              (sub_cy qcy qsize (get_quadrant qcx qcy s.x s.y)) ex ey = j at hj4 ⊢
            interval_cases j <;> simp [QTree.setChild, QTree.numNodes]
          have hqnn : 2 ≤ (QTree.node qx qy qm qsize qcx qcy c0 c1 c2 c3).numNodes :=
            numNodes_ge_two qx qy qm qsize qcx qcy c0 c1 c2 c3
              (get_quadrant qcx qcy s.x s.y) (by rw [hch]; exact hcne)
          have hd2 : ∀ p ∈ contents (QTree.setChild
              (.node ex ey em (qsize / 2)
                (sub_cx qcx qsize (get_quadrant qcx qcy s.x s.y))
                (sub_cy qcy qsize (get_quadrant qcx qcy s.x s.y))
                .nil .nil .nil .nil)
              (get_quadrant (sub_cx qcx qsize (get_quadrant qcx qcy s.x s.y))
                (sub_cy qcy qsize (get_quadrant qcx qcy s.x s.y)) ex ey)
              (.node ex ey em 0 ecx ecy .nil .nil .nil .nil)),
              (QTree.setChild
              (.node ex ey em (qsize / 2)
                (sub_cx qcx qsize (get_quadrant qcx qcy s.x s.y))
                (sub_cy qcy qsize (get_quadrant qcx qcy s.x s.y))
                .nil .nil .nil .nil)
              (get_quadrant (sub_cx qcx qsize (get_quadrant qcx qcy s.x s.y))
                (sub_cy qcy qsize (get_quadrant qcx qcy s.x s.y)) ex ey)
              (.node ex ey em 0 ecx ecy .nil .nil .nil .nil)).size <
                2 ^ k * dinf s.x s.y p.1 p.2.1 := by
            intro p hp
            rw [hnqC, contents_star _ hcne rfl] at hp
            simp only [QTree.x, QTree.y, QTree.mass] at hp
            rw [Multiset.mem_singleton] at hp
            subst hp
            rw [hnqS, div_lt_iff₀ (by norm_num : (0:ℚ) < 2), mul_right_comm]
            rw [pow_succ] at hdc
            exact hdc
          obtain ⟨fuel, res, hres⟩ := ih k _ s (by omega) hnqI
            (by rw [hnqS]; exact half_pos hsz)
            (by rw [hnqX, hnqY, hnqS]
                exact in_square_of_quadrant qcx qcy qsize s.x s.y hin _ rfl)
            hd2
          refine ⟨fuel + 1, (QTree.setChild
            (.node ((qx * qm + s.x * s.mass) / (qm + s.mass))
              ((qy * qm + s.y * s.mass) / (qm + s.mass)) (qm + s.mass) qsize qcx qcy
              c0 c1 c2 c3) (get_quadrant qcx qcy s.x s.y) res.1, res.2 + 1), ?_⟩
          rw [insert_star_eq_split s fuel qx qy qm qsize qcx qcy c0 c1 c2 c3
            ex ey em ecx ecy QTree.nil QTree.nil QTree.nil QTree.nil hch hq2, hres]
          rfl
      · -- interior occupant: descend; the node count strictly drops
        have hesz : (QTree.node ex ey em es ecx ecy e0 e1 e2 e3).size ≠ 0 := by
          simpa [QTree.size] using hes
        obtain ⟨hgs, hgx, hgy⟩ := (hgeom hcne).2 hesz
        simp only [QTree.size, QTree.cx, QTree.cy] at hgs hgx hgy
        have hd2 : ∀ p ∈ contents (QTree.node ex ey em es ecx ecy e0 e1 e2 e3),
            (QTree.node ex ey em es ecx ecy e0 e1 e2 e3).size <
              2 ^ k * dinf s.x s.y p.1 p.2.1 := by
          intro p hp
          have hpq : p ∈ contents (QTree.node qx qy qm qsize qcx qcy c0 c1 c2 c3) := by
            refine mem_contents_child qx qy qm qsize qcx qcy c0 c1 c2 c3
              (get_quadrant qcx qcy s.x s.y) hqsne p ?_
            rw [hch]; exact hp
          have hdp := hd p hpq
          simp only [QTree.size]
          rw [hgs]
          linarith
        have hlt := numNodes_child_lt qx qy qm qsize qcx qcy c0 c1 c2 c3
          (get_quadrant qcx qcy s.x s.y)
        rw [hch] at hlt
        obtain ⟨fuel, res, hres⟩ := ih k _ s (by omega) hIc
          (by simp only [QTree.size]; rw [hgs]; exact half_pos hsz)
          (by simp only [QTree.cx, QTree.cy, QTree.size]
              rw [hgx, hgy, hgs]
              exact in_square_of_quadrant qcx qcy qsize s.x s.y hin _ rfl)
          hd2
        refine ⟨fuel + 1, (QTree.setChild
          (.node ((qx * qm + s.x * s.mass) / (qm + s.mass))
            ((qy * qm + s.y * s.mass) / (qm + s.mass)) (qm + s.mass) qsize qcx qcy
            c0 c1 c2 c3) (get_quadrant qcx qcy s.x s.y) res.1, res.2), ?_⟩
        rw [insert_star_eq_descend s fuel qx qy qm qsize qcx qcy c0 c1 c2 c3
          ex ey em es ecx ecy e0 e1 e2 e3 hch hes, hres]
        rfl

/-- For finitely many recorded stars all at positive distance from `s`,
some halving level separates `s` from each of them. -/
theorem exists_separation_level (sz : ℚ) (s : StarS) (c : Multiset (ℚ × ℚ × ℚ))
    (hpos : ∀ p ∈ c, 0 < dinf s.x s.y p.1 p.2.1) :
    ∃ k : ℕ, ∀ p ∈ c, sz < 2 ^ k * dinf s.x s.y p.1 p.2.1 := by
  induction c using Multiset.induction_on with
  | empty => exact ⟨0, fun p hp => absurd hp (Multiset.not_mem_zero p)⟩
  | cons a t ih =>
    obtain ⟨k1, hk1⟩ := ih (fun p hp => hpos p (Multiset.mem_cons_of_mem hp))
    have hda : 0 < dinf s.x s.y a.1 a.2.1 := hpos a (Multiset.mem_cons_self a t)
    obtain ⟨k2, hk2⟩ := pow_unbounded_of_one_lt (sz / dinf s.x s.y a.1 a.2.1)
      (by norm_num : (1:ℚ) < 2)
    rw [div_lt_iff₀ hda] at hk2
    refine ⟨max k1 k2, fun p hp => ?_⟩
    rcases Multiset.mem_cons.mp hp with rfl | hp2
    · refine lt_of_lt_of_le hk2 ?_
      exact mul_le_mul_of_nonneg_right
        (pow_le_pow_right₀ (by norm_num) (le_max_right k1 k2)) (le_of_lt hda)
    · refine lt_of_lt_of_le (hk1 p hp2) ?_
      exact mul_le_mul_of_nonneg_right
        (pow_le_pow_right₀ (by norm_num) (le_max_left k1 k2))
        (le_of_lt (hpos p (Multiset.mem_cons_of_mem hp2)))

theorem foldl_min_le_start (f : StarS → ℚ) : ∀ (l : List StarS) (a : ℚ),
    l.foldl (fun m t => if m > f t then f t else m) a ≤ a := by
  intro l
  induction l with
  | nil => intro a; exact le_refl a
  | cons s rest ih =>
    intro a
    simp only [List.foldl_cons]
    by_cases h : a > f s
    · rw [if_pos h]; exact le_trans (ih (f s)) (le_of_lt h)
    · rw [if_neg h]; exact ih a

theorem foldl_min_le_mem (f : StarS → ℚ) : ∀ (l : List StarS) (a : ℚ) (s : StarS),
    s ∈ l → l.foldl (fun m t => if m > f t then f t else m) a ≤ f s := by
  intro l
  induction l with
  | nil => intro a s hs; exact absurd hs (List.not_mem_nil s)
  | cons t rest ih =>
    intro a s hs
    simp only [List.foldl_cons]
    rcases List.mem_cons.mp hs with rfl | hs2
    · by_cases h : a > f s
      · rw [if_pos h]; exact foldl_min_le_start f rest (f s)
      · rw [if_neg h]; exact le_trans (foldl_min_le_start f rest a) (not_lt.mp h)
    · by_cases h : a > f t
      · rw [if_pos h]; exact ih (f t) s hs2
      · rw [if_neg h]; exact ih a s hs2

/-- The C bounds pass (`xmin` fold from `+INFINITY`) computes a lower
bound of every star's coordinate. -/
theorem fold_min_le (f : StarS → ℚ) (l : List StarS) (s : StarS) (hs : s ∈ l) :
    fold_min f l ≤ f s := by
  rcases l with _ | ⟨h0, rest⟩
  · exact absurd hs (List.not_mem_nil s)
  · unfold fold_min
    rcases List.mem_cons.mp hs with rfl | hs2
    · exact foldl_min_le_start f rest (f s)
    · exact foldl_min_le_mem f rest (f h0) s hs2

theorem foldl_max_ge_start (f : StarS → ℚ) : ∀ (l : List StarS) (a : ℚ),
    a ≤ l.foldl (fun m t => if m < f t then f t else m) a := by
  intro l
  induction l with
  | nil => intro a; exact le_refl a
  | cons s rest ih =>
    intro a
    simp only [List.foldl_cons]
    by_cases h : a < f s
    · rw [if_pos h]; exact le_trans (le_of_lt h) (ih (f s))
    · rw [if_neg h]; exact ih a

theorem foldl_max_ge_mem (f : StarS → ℚ) : ∀ (l : List StarS) (a : ℚ) (s : StarS),
    s ∈ l → f s ≤ l.foldl (fun m t => if m < f t then f t else m) a := by
  intro l
  induction l with
  | nil => intro a s hs; exact absurd hs (List.not_mem_nil s)
  | cons t rest ih =>
    intro a s hs
    simp only [List.foldl_cons]
    rcases List.mem_cons.mp hs with rfl | hs2
    · by_cases h : a < f s
      · rw [if_pos h]; exact foldl_max_ge_start f rest (f s)
      · rw [if_neg h]; exact le_trans (not_lt.mp h) (foldl_max_ge_start f rest a)
    · by_cases h : a < f t
      · rw [if_pos h]; exact ih (f t) s hs2
      · rw [if_neg h]; exact ih a s hs2

/-- The C bounds pass (`xmax` fold from `-INFINITY`) computes an upper
bound of every star's coordinate. -/
theorem fold_max_ge (f : StarS → ℚ) (l : List StarS) (s : StarS) (hs : s ∈ l) :
    f s ≤ fold_max f l := by
  rcases l with _ | ⟨h0, rest⟩
  · exact absurd hs (List.not_mem_nil s)
  · unfold fold_max
    rcases List.mem_cons.mp hs with rfl | hs2
    · exact foldl_max_ge_start f rest (f s)
    · exact foldl_max_ge_mem f rest (f h0) s hs2

/-- Spec invariant 3 of section 8: every star lies inside the root
square computed by the bounds pass. -/
theorem star_in_root_square (stars : List StarS) (s : StarS) (hs : s ∈ stars) :
    in_square (init_root stars).cx (init_root stars).cy (init_root stars).size
      s.x s.y := by
  unfold init_root in_square
  simp only [QTree.cx, QTree.cy, QTree.size]
  have hx1 := fold_min_le (fun t => t.x) stars s hs
  have hx2 := fold_max_ge (fun t => t.x) stars s hs
  have hy1 := fold_min_le (fun t => t.y) stars s hs
  have hy2 := fold_max_ge (fun t => t.y) stars s hs
  split_ifs with h
  · refine ⟨by linarith, by linarith, by linarith, by linarith⟩
  · refine ⟨by linarith, by linarith, by linarith, by linarith⟩

/-- With two stars at different positions, the root square has positive
side. -/
theorem init_root_size_pos (stars : List StarS) (a b : StarS) (ha : a ∈ stars)
    (hb : b ∈ stars) (hne : ((a.x, a.y) : ℚ × ℚ) ≠ (b.x, b.y)) :
    0 < (init_root stars).size := by
  unfold init_root
  simp only [QTree.size]
  have hax1 := fold_min_le (fun t => t.x) stars a ha
  have hax2 := fold_max_ge (fun t => t.x) stars a ha
  have hay1 := fold_min_le (fun t => t.y) stars a ha
  have hay2 := fold_max_ge (fun t => t.y) stars a ha
  have hbx1 := fold_min_le (fun t => t.x) stars b hb
  have hbx2 := fold_max_ge (fun t => t.x) stars b hb
  have hby1 := fold_min_le (fun t => t.y) stars b hb
  have hby2 := fold_max_ge (fun t => t.y) stars b hb
  rcases eq_or_ne a.x b.x with hx | hx
  · have hy : a.y ≠ b.y := by
      intro hy
      exact hne (by rw [hx, hy])
    split_ifs with h
    · rcases lt_or_gt_of_ne hy with h2 | h2 <;> simp only at * <;> linarith
    · rcases lt_or_gt_of_ne hy with h2 | h2 <;> simp only at * <;> linarith
  · split_ifs with h
    · rcases lt_or_gt_of_ne hx with h2 | h2 <;> simp only at * <;> linarith
    · rcases lt_or_gt_of_ne hx with h2 | h2 <;> simp only at * <;> linarith

/-- The root quad before insertions: structurally sound, no children,
nothing recorded, zero mass. -/
theorem init_root_props (stars : List StarS) :
    InvT (init_root stars) ∧ init_root stars ≠ QTree.nil ∧
    ((init_root stars).size ≠ 0 →
      contents (init_root stars) = 0 ∧ TreeOK (init_root stars) ∧
      PosMass (init_root stars)) := by
  refine ⟨?_, ?_, fun hsz => ?_⟩
  · unfold init_root
    simp [InvT, childGeom]
  · unfold init_root
    exact fun h => QTree.noConfusion h
  · unfold init_root at hsz ⊢
    simp only [QTree.size] at hsz
    have hc : contents (QTree.node 0 0 0
        (if fold_max (fun s => s.x) stars - fold_min (fun s => s.x) stars >
            fold_max (fun s => s.y) stars - fold_min (fun s => s.y) stars then
          fold_max (fun s => s.x) stars - fold_min (fun s => s.x) stars
        else fold_max (fun s => s.y) stars - fold_min (fun s => s.y) stars)
        ((fold_min (fun s => s.x) stars + fold_max (fun s => s.x) stars) / 2)
        ((fold_min (fun s => s.y) stars + fold_max (fun s => s.y) stars) / 2)
        QTree.nil QTree.nil QTree.nil QTree.nil) = 0 := by
      rw [contents_node_expand _ _ _ _ _ _ _ _ _ _ hsz]
      rfl
    refine ⟨hc, ?_, ?_⟩
    · simp only [TreeOK, NodeOK, hc]
      simp [msum, mxsum, mysum, QTree.mass, QTree.x, QTree.y]
    · intro p hp
      rw [hc] at hp
      exact absurd hp (Multiset.not_mem_zero p)

/-- The structural half of `updated_root_props`: no assumptions on
masses are needed for the geometry and contents bookkeeping. -/
theorem updated_root_struct (s : StarS) (qx qy qm qsize qcx qcy : ℚ)
    (c0 c1 c2 c3 : QTree) (i : ℕ) (hi : i < 4) (X : QTree)
    (hqsne : qsize ≠ 0)
    (hInv : InvT (.node qx qy qm qsize qcx qcy c0 c1 c2 c3))
    (hgX : childGeom qsize qcx qcy i X) (hIX : InvT X)
    (hCX : contents X = (s.x, s.y, s.mass) ::ₘ
      contents (QTree.child (.node qx qy qm qsize qcx qcy c0 c1 c2 c3) i)) :
    InvT (QTree.setChild (.node ((qx * qm + s.x * s.mass) / (qm + s.mass))
        ((qy * qm + s.y * s.mass) / (qm + s.mass)) (qm + s.mass) qsize qcx qcy
        c0 c1 c2 c3) i X) ∧
    (QTree.setChild (.node ((qx * qm + s.x * s.mass) / (qm + s.mass))
        ((qy * qm + s.y * s.mass) / (qm + s.mass)) (qm + s.mass) qsize qcx qcy
        c0 c1 c2 c3) i X).size = qsize ∧
    (QTree.setChild (.node ((qx * qm + s.x * s.mass) / (qm + s.mass))
        ((qy * qm + s.y * s.mass) / (qm + s.mass)) (qm + s.mass) qsize qcx qcy
        c0 c1 c2 c3) i X).cx = qcx ∧
    (QTree.setChild (.node ((qx * qm + s.x * s.mass) / (qm + s.mass))
        ((qy * qm + s.y * s.mass) / (qm + s.mass)) (qm + s.mass) qsize qcx qcy
        c0 c1 c2 c3) i X).cy = qcy ∧
    QTree.setChild (.node ((qx * qm + s.x * s.mass) / (qm + s.mass))
        ((qy * qm + s.y * s.mass) / (qm + s.mass)) (qm + s.mass) qsize qcx qcy
        c0 c1 c2 c3) i X ≠ QTree.nil ∧
    contents (QTree.setChild (.node ((qx * qm + s.x * s.mass) / (qm + s.mass))
        ((qy * qm + s.y * s.mass) / (qm + s.mass)) (qm + s.mass) qsize qcx qcy
        c0 c1 c2 c3) i X) =
      (s.x, s.y, s.mass) ::ₘ contents (.node qx qy qm qsize qcx qcy c0 c1 c2 c3) := by
  obtain ⟨f1, f2, f3, f4, f5, f6, f7⟩ := setChild_node_fields
    ((qx * qm + s.x * s.mass) / (qm + s.mass))
    ((qy * qm + s.y * s.mass) / (qm + s.mass)) (qm + s.mass) qsize qcx qcy
    c0 c1 c2 c3 X i
  have hcsum := contents_setChild ((qx * qm + s.x * s.mass) / (qm + s.mass))
    ((qy * qm + s.y * s.mass) / (qm + s.mass)) (qm + s.mass) qsize qcx qcy
    c0 c1 c2 c3 X i hqsne hi
  rw [child_node_congr ((qx * qm + s.x * s.mass) / (qm + s.mass))
    ((qy * qm + s.y * s.mass) / (qm + s.mass)) (qm + s.mass) qsize qcx qcy
    qx qy qm qsize qcx qcy c0 c1 c2 c3 i] at hcsum
  have hcq1 : contents (QTree.node ((qx * qm + s.x * s.mass) / (qm + s.mass))
      ((qy * qm + s.y * s.mass) / (qm + s.mass)) (qm + s.mass) qsize qcx qcy
      c0 c1 c2 c3) = contents (.node qx qy qm qsize qcx qcy c0 c1 c2 c3) := by
    rw [contents_node_expand _ _ _ _ _ _ _ _ _ _ hqsne,
      contents_node_expand _ _ _ _ _ _ _ _ _ _ hqsne]
  rw [hcq1, hCX] at hcsum
  have hcontents : contents (QTree.setChild
      (.node ((qx * qm + s.x * s.mass) / (qm + s.mass))
        ((qy * qm + s.y * s.mass) / (qm + s.mass)) (qm + s.mass) qsize qcx qcy
        c0 c1 c2 c3) i X) =
      (s.x, s.y, s.mass) ::ₘ contents (.node qx qy qm qsize qcx qcy c0 c1 c2 c3) := by
    refine add_right_cancel (b := contents (QTree.child
      (.node qx qy qm qsize qcx qcy c0 c1 c2 c3) i)) ?_
    rw [hcsum, ← Multiset.singleton_add, ← Multiset.singleton_add]
    abel
  refine ⟨?_, f4, f5, f6, f7, hcontents⟩
  exact InvT_setChild _ _ _ _ _ _ c0 c1 c2 c3 i hi X
    (InvT_com_update qx qy qm _ _ _ qsize qcx qcy c0 c1 c2 c3 hInv) hqsne hgX hIX

/-- Mass-free version of `insert_spec`: one successful insertion
preserves the structural invariant and geometry and records the star,
with no hypotheses on masses (the loop's control flow never reads
them). -/
theorem insert_spec_struct : ∀ (fuel : ℕ) (s : StarS) (q r : QTree) (k : ℕ),
    insert_star s fuel q = some (r, k) →
    InvT q → 0 < q.size → in_square q.cx q.cy q.size s.x s.y →
    InvT r ∧ r.size = q.size ∧ r.cx = q.cx ∧ r.cy = q.cy ∧ r ≠ QTree.nil ∧
      contents r = (s.x, s.y, s.mass) ::ₘ contents q := by
  intro fuel
  induction fuel with
  | zero =>
    intro s q r k h
    exact absurd h (by simp [insert_star])
  | succ fuel ih =>
    intro s q r k h hInv hsz hin
    rcases q with _ | ⟨qx, qy, qm, qsize, qcx, qcy, c0, c1, c2, c3⟩
    · exact absurd hsz (by simp [QTree.size])
    simp only [QTree.size, QTree.cx, QTree.cy] at hsz hin
    have hqsne : qsize ≠ 0 := ne_of_gt hsz
    have hi4 : get_quadrant qcx qcy s.x s.y < 4 := quadrant_lt4 qcx qcy s.x s.y
    have hgeom := InvT_childGeom_of qx qy qm qsize qcx qcy c0 c1 c2 c3 hInv
      (get_quadrant qcx qcy s.x s.y) hi4
    have hIc := InvT_child_of qx qy qm qsize qcx qcy c0 c1 c2 c3 hInv
      (get_quadrant qcx qcy s.x s.y)
    rcases hch : QTree.child (.node qx qy qm qsize qcx qcy c0 c1 c2 c3)
        (get_quadrant qcx qcy s.x s.y) with _ |
        ⟨ex, ey, em, es, ecx, ecy, e0, e1, e2, e3⟩
    · rw [insert_star_eq_empty s fuel qx qy qm qsize qcx qcy c0 c1 c2 c3 hch] at h
      simp only [Option.some.injEq, Prod.mk.injEq] at h
      obtain ⟨hr, -⟩ := h
      subst hr
      obtain ⟨sl1, sl2, -, -, -, -, sl7, -⟩ := star_leaf_props s
      have hgX : childGeom qsize qcx qcy (get_quadrant qcx qcy s.x s.y) (star_leaf s) := by
        intro _
        refine ⟨fun _ => ?_, fun hne => absurd sl2 hne⟩
        have hsub := in_square_of_quadrant qcx qcy qsize s.x s.y hin _ rfl
        simpa [star_leaf, QTree.x, QTree.y] using hsub
      have hCX : contents (star_leaf s) = (s.x, s.y, s.mass) ::ₘ
          contents (QTree.child (.node qx qy qm qsize qcx qcy c0 c1 c2 c3)
            (get_quadrant qcx qcy s.x s.y)) := by
        rw [hch, contents_nil, sl1, Multiset.cons_zero]
      exact updated_root_struct s qx qy qm qsize qcx qcy c0 c1 c2 c3 _ hi4
        (star_leaf s) hqsne hInv hgX sl7 hCX
    · rw [hch] at hgeom hIc
      have hcne : (QTree.node ex ey em es ecx ecy e0 e1 e2 e3) ≠ QTree.nil :=
        fun hx => QTree.noConfusion hx
      by_cases hes : es = 0
      · subst hes
        have hnilc : e0 = QTree.nil ∧ e1 = QTree.nil ∧ e2 = QTree.nil ∧
            e3 = QTree.nil := by
          have hIc2 := hIc
          simp only [InvT] at hIc2
          exact hIc2.1 trivial
        obtain ⟨rfl, rfl, rfl, rfl⟩ := hnilc
        have hq2 : (qsize / 2 : ℚ) ≠ 0 := fun h0 => hqsne (by
          rcases div_eq_zero_iff.mp h0 with h1 | h1
          · exact h1
          · exact absurd h1 (by norm_num))
        rw [insert_star_eq_split s fuel qx qy qm qsize qcx qcy c0 c1 c2 c3
          ex ey em ecx ecy QTree.nil QTree.nil QTree.nil QTree.nil hch hq2] at h
        obtain ⟨⟨nq2, kk⟩, hrec, hz⟩ := Option.map_eq_some'.mp h
        simp only [Prod.mk.injEq] at hz
        obtain ⟨hr, -⟩ := hz
        subst hr
        have hinsub : in_square (sub_cx qcx qsize (get_quadrant qcx qcy s.x s.y))
            (sub_cy qcy qsize (get_quadrant qcx qcy s.x s.y)) (qsize / 2)
            (QTree.node ex ey em 0 ecx ecy QTree.nil QTree.nil QTree.nil QTree.nil).x
            (QTree.node ex ey em 0 ecx ecy QTree.nil QTree.nil QTree.nil
              QTree.nil).y :=
          (hgeom hcne).1 rfl
        have hTc : TreeOK (QTree.node ex ey em 0 ecx ecy
            QTree.nil QTree.nil QTree.nil QTree.nil) := by
          simp [TreeOK, NodeOK, contents, msum, mxsum, mysum,
            QTree.x, QTree.y, QTree.mass]
        have hnqp := new_quad_props qcx qcy qsize (get_quadrant qcx qcy s.x s.y)
          (QTree.node ex ey em 0 ecx ecy QTree.nil QTree.nil QTree.nil QTree.nil)
          hq2 hcne rfl hIc hTc hinsub _ rfl
        simp only [QTree.x, QTree.y, QTree.mass] at hnqp hrec
        obtain ⟨hnqI, -, hnqC, hnqS, hnqX, hnqY, -⟩ := hnqp
        have hih := ih s _ nq2 kk hrec hnqI (by rw [hnqS]; exact half_pos hsz)
          (by rw [hnqX, hnqY, hnqS]
              exact in_square_of_quadrant qcx qcy qsize s.x s.y hin _ rfl)
        obtain ⟨ihI, ihS, ihX, ihY, ihN, ihC⟩ := hih
        rw [hnqS] at ihS
        rw [hnqX] at ihX
        rw [hnqY] at ihY
        have hgX : childGeom qsize qcx qcy (get_quadrant qcx qcy s.x s.y) nq2 := by
          intro _
          refine ⟨fun h0 => absurd (ihS ▸ h0) hq2, fun _ => ⟨ihS, ihX, ihY⟩⟩
        have hCX : contents nq2 = (s.x, s.y, s.mass) ::ₘ
            contents (QTree.child (.node qx qy qm qsize qcx qcy c0 c1 c2 c3)
              (get_quadrant qcx qcy s.x s.y)) := by
          rw [ihC, hnqC, hch]
        exact updated_root_struct s qx qy qm qsize qcx qcy c0 c1 c2 c3 _ hi4
          nq2 hqsne hInv hgX ihI hCX
      · rw [insert_star_eq_descend s fuel qx qy qm qsize qcx qcy c0 c1 c2 c3
          ex ey em es ecx ecy e0 e1 e2 e3 hch hes] at h
        obtain ⟨⟨c2r, kk⟩, hrec, hz⟩ := Option.map_eq_some'.mp h
        simp only [Prod.mk.injEq] at hz
        obtain ⟨hr, -⟩ := hz
        subst hr
        have hesz : (QTree.node ex ey em es ecx ecy e0 e1 e2 e3).size ≠ 0 := by
          simpa [QTree.size] using hes
        obtain ⟨hgs, hgx, hgy⟩ := (hgeom hcne).2 hesz
        have hih := ih s _ c2r kk hrec hIc
          (by rw [hgs]; exact half_pos hsz)
          (by rw [hgx, hgy, hgs]
              exact in_square_of_quadrant qcx qcy qsize s.x s.y hin _ rfl)
        obtain ⟨ihI, ihS, ihX, ihY, ihN, ihC⟩ := hih
        rw [hgs] at ihS
        rw [hgx] at ihX
        rw [hgy] at ihY
        have hq2 : (qsize / 2 : ℚ) ≠ 0 := fun h0 => hqsne (by
          rcases div_eq_zero_iff.mp h0 with h1 | h1
          · exact h1
          · exact absurd h1 (by norm_num))
        have hgX : childGeom qsize qcx qcy (get_quadrant qcx qcy s.x s.y) c2r := by
          intro _
          refine ⟨fun h0 => absurd (ihS ▸ h0) hq2, fun _ => ⟨ihS, ihX, ihY⟩⟩
        have hCX : contents c2r = (s.x, s.y, s.mass) ::ₘ
            contents (QTree.child (.node qx qy qm qsize qcx qcy c0 c1 c2 c3)
              (get_quadrant qcx qcy s.x s.y)) := by
          rw [ihC, hch]
        exact updated_root_struct s qx qy qm qsize qcx qcy c0 c1 c2 c3 _ hi4
          c2r hqsne hInv hgX ihI hCX

theorem build_from_nil (fuel : ℕ) (t : QTree) (cnt : ℕ) :
    build_from fuel [] t cnt = some (t, cnt) := rfl

theorem build_from_cons_none (fuel : ℕ) (s : StarS) (rest : List StarS)
    (t : QTree) (cnt : ℕ) (hi : insert_star s fuel t = none) :
    build_from fuel (s :: rest) t cnt = none := by
  simp [build_from, hi]

theorem build_from_cons_some (fuel : ℕ) (s : StarS) (rest : List StarS)
    (t t2 : QTree) (cnt k : ℕ) (hi : insert_star s fuel t = some (t2, k)) :
    build_from fuel (s :: rest) t cnt = build_from fuel rest t2 (cnt + k) := by
  simp [build_from, hi]

theorem build_from_mono : ∀ (todo : List StarS) (fuel : ℕ) (t : QTree) (cnt : ℕ)
    (res : QTree × ℕ), build_from fuel todo t cnt = some res →
    build_from (fuel + 1) todo t cnt = some res := by
  intro todo
  induction todo with
  | nil => intro fuel t cnt res h; exact h
  | cons s rest ih =>
    intro fuel t cnt res h
    rcases hi : insert_star s fuel t with _ | ⟨t2, k⟩
    · rw [build_from_cons_none fuel s rest t cnt hi] at h
      exact absurd h (by simp)
    · rw [build_from_cons_some fuel s rest t t2 cnt k hi] at h
      rw [build_from_cons_some (fuel + 1) s rest t t2 cnt k
        (insert_star_mono fuel s t (t2, k) hi)]
      exact ih fuel t2 (cnt + k) res h

theorem build_from_mono_le (todo : List StarS) (t : QTree) (cnt : ℕ)
    (res : QTree × ℕ) (f1 f2 : ℕ) (hle : f1 ≤ f2)
    (h : build_from f1 todo t cnt = some res) :
    build_from f2 todo t cnt = some res := by
  induction hle with
  | refl => exact h
  | step _ ih2 => exact build_from_mono todo _ t cnt res ih2

/-- The build fold preserves the invariants and records exactly the
inserted stars. -/
theorem build_from_spec : ∀ (todo : List StarS) (fuel : ℕ) (t : QTree) (cnt : ℕ)
    (r : QTree) (rc : ℕ),
    build_from fuel todo t cnt = some (r, rc) →
    InvT t → 0 < t.size → TreeOK t → PosMass t →
    (∀ s ∈ todo, in_square t.cx t.cy t.size s.x s.y) →
    (∀ s ∈ todo, 0 < s.mass) →
    InvT r ∧ TreeOK r ∧ PosMass r ∧ r.size = t.size ∧ r.cx = t.cx ∧ r.cy = t.cy ∧
      contents r = ↑(todo.map (fun s => (s.x, s.y, s.mass))) + contents t := by
  intro todo
  induction todo with
  | nil =>
    intro fuel t cnt r rc h hI hsz hTO hPM _ _
    simp only [build_from, Option.some.injEq, Prod.mk.injEq] at h
    obtain ⟨rfl, -⟩ := h
    exact ⟨hI, hTO, hPM, rfl, rfl, rfl, by simp⟩
  | cons s rest ih =>
    intro fuel t cnt r rc h hI hsz hTO hPM hin hm
    rcases hi : insert_star s fuel t with _ | ⟨t2, k⟩
    · rw [build_from_cons_none fuel s rest t cnt hi] at h
      exact absurd h (by simp)
    · rw [build_from_cons_some fuel s rest t t2 cnt k hi] at h
      obtain ⟨iI, iT, iPM, iS, iX, iY, iN, iC⟩ := insert_spec fuel s t t2 k hi hI hsz
        (hin s (List.mem_cons_self s rest)) hTO hPM (hm s (List.mem_cons_self s rest))
      obtain ⟨rI, rT, rPM, rS, rX, rY, rC⟩ := ih fuel t2 (cnt + k) r rc h iI
        (by rw [iS]; exact hsz) iT iPM
        (fun s2 hs2 => by
          rw [iS, iX, iY]
          exact hin s2 (List.mem_cons_of_mem s hs2))
        (fun s2 hs2 => hm s2 (List.mem_cons_of_mem s hs2))
      refine ⟨rI, rT, rPM, by rw [rS, iS], by rw [rX, iX], by rw [rY, iY], ?_⟩
      rw [rC, iC]
      rw [List.map_cons, ← Multiset.cons_coe, ← Multiset.singleton_add,
        ← Multiset.singleton_add]
      abel

/-- The node list never contains the NULL pointer. -/
theorem mem_allNodes_ne_nil : ∀ t : QTree, ∀ n ∈ QTree.allNodes t, n ≠ QTree.nil := by
  intro t
  induction t with
  | nil =>
    intro n hn
    exact absurd hn (by simp [QTree.allNodes])
  | node x y m s cx cy c0 c1 c2 c3 ih0 ih1 ih2 ih3 =>
    intro n hn
    simp only [QTree.allNodes, List.mem_cons, List.mem_append] at hn
    rcases hn with rfl | ⟨⟨h | h⟩ | h⟩ | h
    · exact fun h0 => QTree.noConfusion h0
    · exact ih0 n h
    · exact ih1 n h
    · exact ih2 n h
    · exact ih3 n h

/-- The root side computed by the bounds pass is never negative. -/
theorem init_root_size_nonneg (stars : List StarS) : 0 ≤ (init_root stars).size := by
  unfold init_root
  simp only [QTree.size]
  rcases stars with _ | ⟨s0, rest⟩
  · simp [fold_min, fold_max]
  · have h1 := fold_min_le (fun t => t.x) (s0 :: rest) s0 (List.mem_cons_self s0 rest)
    have h2 := fold_max_ge (fun t => t.x) (s0 :: rest) s0 (List.mem_cons_self s0 rest)
    have h3 := fold_min_le (fun t => t.y) (s0 :: rest) s0 (List.mem_cons_self s0 rest)
    have h4 := fold_max_ge (fun t => t.y) (s0 :: rest) s0 (List.mem_cons_self s0 rest)
    simp only at h1 h2 h3 h4
    split_ifs with h <;> linarith

/-- A child slot holds one of the four children. -/
theorem child_slot_cases (x y m s cx cy : ℚ) (c0 c1 c2 c3 : QTree) (i : ℕ) :
    QTree.child (.node x y m s cx cy c0 c1 c2 c3) i = c0 ∨
    QTree.child (.node x y m s cx cy c0 c1 c2 c3) i = c1 ∨
    QTree.child (.node x y m s cx cy c0 c1 c2 c3) i = c2 ∨
    QTree.child (.node x y m s cx cy c0 c1 c2 c3) i = c3 := by
  simp only [QTree.child]
  split_ifs <;> simp

/-- A successful insertion always adds the star's mass to the root
(world.c:240-243 runs before any descent). -/
theorem insert_star_mass : ∀ (fuel : ℕ) (s : StarS) (q r : QTree) (k : ℕ),
    insert_star s fuel q = some (r, k) → r.mass = q.mass + s.mass := by
  intro fuel s q r k h
  rcases fuel with _ | fuel
  · exact absurd h (by simp [insert_star])
  rcases q with _ | ⟨qx, qy, qm, qsize, qcx, qcy, c0, c1, c2, c3⟩
  · exact absurd h (by simp [insert_star])
  rcases hch : QTree.child (.node qx qy qm qsize qcx qcy c0 c1 c2 c3)
      (get_quadrant qcx qcy s.x s.y) with _ |
      ⟨ex, ey, em, es, ecx, ecy, e0, e1, e2, e3⟩
  · rw [insert_star_eq_empty s fuel qx qy qm qsize qcx qcy c0 c1 c2 c3 hch] at h
    simp only [Option.some.injEq, Prod.mk.injEq] at h
    obtain ⟨hr, -⟩ := h
    subst hr
    simp only [QTree.mass]
    exact (setChild_node_fields _ _ _ _ _ _ _ _ _ _ _ _).2.2.1
  · by_cases hes : es = 0
    · subst hes
      by_cases hq2 : (qsize / 2 : ℚ) ≠ 0
      · rw [insert_star_eq_split s fuel qx qy qm qsize qcx qcy c0 c1 c2 c3
          ex ey em ecx ecy e0 e1 e2 e3 hch hq2] at h
        obtain ⟨z, -, hz⟩ := Option.map_eq_some'.mp h
        simp only [Prod.mk.injEq] at hz
        obtain ⟨hr, -⟩ := hz
        subst hr
        simp only [QTree.mass]
        exact (setChild_node_fields _ _ _ _ _ _ _ _ _ _ _ _).2.2.1
      · rw [insert_star_eq_split_stop s fuel qx qy qm qsize qcx qcy c0 c1 c2 c3
          ex ey em ecx ecy e0 e1 e2 e3 hch hq2] at h
        simp only [Option.some.injEq, Prod.mk.injEq] at h
        obtain ⟨hr, -⟩ := h
        subst hr
        simp only [QTree.mass]
        exact (setChild_node_fields _ _ _ _ _ _ _ _ _ _ _ _).2.2.1
    · rw [insert_star_eq_descend s fuel qx qy qm qsize qcx qcy c0 c1 c2 c3
        ex ey em es ecx ecy e0 e1 e2 e3 hch hes] at h
      obtain ⟨z, -, hz⟩ := Option.map_eq_some'.mp h
      simp only [Prod.mk.injEq] at hz
      obtain ⟨hr, -⟩ := hz
      subst hr
      simp only [QTree.mass]
      exact (setChild_node_fields _ _ _ _ _ _ _ _ _ _ _ _).2.2.1

/-- The build fold accumulates the total inserted mass at the root. -/
theorem build_from_mass : ∀ (todo : List StarS) (fuel : ℕ) (t : QTree) (cnt : ℕ)
    (r : QTree) (rc : ℕ), build_from fuel todo t cnt = some (r, rc) →
    r.mass = t.mass + (todo.map (fun s => s.mass)).sum := by
  intro todo
  induction todo with
  | nil =>
    intro fuel t cnt r rc h
    simp only [build_from, Option.some.injEq, Prod.mk.injEq] at h
    obtain ⟨rfl, -⟩ := h
    simp
  | cons s rest ih =>
    intro fuel t cnt r rc h
    rcases hi : insert_star s fuel t with _ | ⟨t2, k⟩
    · rw [build_from_cons_none fuel s rest t cnt hi] at h
      exact absurd h (by simp)
    · rw [build_from_cons_some fuel s rest t t2 cnt k hi] at h
      rw [ih fuel t2 (cnt + k) r rc h, insert_star_mass fuel s t t2 k hi]
      simp only [List.map_cons, List.sum_cons]
      ring

/-- Decomposition of the all-sizes-zero property at a node. -/
theorem az_node_parts (x y m s cx cy : ℚ) (c0 c1 c2 c3 : QTree)
    (h : ∀ n ∈ QTree.allNodes (.node x y m s cx cy c0 c1 c2 c3), n.size = 0) :
    s = 0 ∧ (∀ n ∈ QTree.allNodes c0, n.size = 0) ∧
    (∀ n ∈ QTree.allNodes c1, n.size = 0) ∧
    (∀ n ∈ QTree.allNodes c2, n.size = 0) ∧
    (∀ n ∈ QTree.allNodes c3, n.size = 0) := by
  refine ⟨?_, fun n hn => h n ?_, fun n hn => h n ?_, fun n hn => h n ?_,
    fun n hn => h n ?_⟩
  · have h0 := h (.node x y m s cx cy c0 c1 c2 c3) (by simp [QTree.allNodes])
    simpa [QTree.size] using h0
  all_goals simp only [QTree.allNodes, List.mem_cons, List.mem_append]
  · exact Or.inr (Or.inl (Or.inl (Or.inl hn)))
  · exact Or.inr (Or.inl (Or.inl (Or.inr hn)))
  · exact Or.inr (Or.inl (Or.inr hn))
  · exact Or.inr (Or.inr hn)

/-- Replacing a child slot keeps all sizes zero when everything in sight
has size zero. -/
theorem az_setChild (x y m s cx cy : ℚ) (c0 c1 c2 c3 c : QTree) (i : ℕ)
    (hi : i < 4) (hs : s = 0)
    (h0 : ∀ n ∈ QTree.allNodes c0, n.size = 0)
    (h1 : ∀ n ∈ QTree.allNodes c1, n.size = 0)
    (h2 : ∀ n ∈ QTree.allNodes c2, n.size = 0)
    (h3 : ∀ n ∈ QTree.allNodes c3, n.size = 0)
    (hc : ∀ n ∈ QTree.allNodes c, n.size = 0) :
    ∀ n ∈ QTree.allNodes (QTree.setChild (.node x y m s cx cy c0 c1 c2 c3) i c),
      n.size = 0 := by
  interval_cases i <;>
    · simp only [QTree.setChild]
      norm_num
      intro n hn
      simp only [QTree.allNodes, List.mem_cons, List.mem_append] at hn
      rcases hn with rfl | ⟨⟨h | h⟩ | h⟩ | h <;>
        first
          | (simp only [QTree.size]; exact hs)
          | exact h0 n h
          | exact h1 n h
          | exact h2 n h
          | exact h3 n h
          | exact hc n h

/-- In the degenerate all-coincident frame (zero root side), one
insertion keeps every node size zero: the loop never descends (the new
quad's size `0/2` is zero, world.c:262), so it runs exactly one
iteration. -/
theorem insert_star_az (fuel : ℕ) (s : StarS) (q r : QTree) (k : ℕ)
    (h : insert_star s fuel q = some (r, k))
    (haz : ∀ n ∈ QTree.allNodes q, n.size = 0) :
    ∀ n ∈ QTree.allNodes r, n.size = 0 := by
  rcases fuel with _ | fuel
  · exact absurd h (by simp [insert_star])
  rcases q with _ | ⟨qx, qy, qm, qsize, qcx, qcy, c0, c1, c2, c3⟩
  · exact absurd h (by simp [insert_star])
  obtain ⟨hqs, haz0, haz1, haz2, haz3⟩ :=
    az_node_parts qx qy qm qsize qcx qcy c0 c1 c2 c3 haz
  have hi4 : get_quadrant qcx qcy s.x s.y < 4 := quadrant_lt4 qcx qcy s.x s.y
  have hazc : ∀ n ∈ QTree.allNodes (QTree.child
      (.node qx qy qm qsize qcx qcy c0 c1 c2 c3) (get_quadrant qcx qcy s.x s.y)),
      n.size = 0 := by
    rcases child_slot_cases qx qy qm qsize qcx qcy c0 c1 c2 c3
        (get_quadrant qcx qcy s.x s.y) with hc | hc | hc | hc <;> rw [hc] <;>
      assumption
  rcases hch : QTree.child (.node qx qy qm qsize qcx qcy c0 c1 c2 c3)
      (get_quadrant qcx qcy s.x s.y) with _ |
      ⟨ex, ey, em, es, ecx, ecy, e0, e1, e2, e3⟩
  · rw [insert_star_eq_empty s fuel qx qy qm qsize qcx qcy c0 c1 c2 c3 hch] at h
    simp only [Option.some.injEq, Prod.mk.injEq] at h
    obtain ⟨hr, -⟩ := h
    subst hr
    refine az_setChild _ _ _ _ _ _ c0 c1 c2 c3 (star_leaf s) _ hi4 hqs
      haz0 haz1 haz2 haz3 ?_
    intro n hn
    simp [star_leaf, QTree.allNodes] at hn
    subst hn
    rfl
  · rw [hch] at hazc
    have hes : es = 0 := by
      have := hazc (.node ex ey em es ecx ecy e0 e1 e2 e3) (by simp [QTree.allNodes])
      simpa [QTree.size] using this
    subst hes
    have hq2 : ¬ ((qsize / 2 : ℚ) ≠ 0) := by
      rw [hqs]
      norm_num
    rw [insert_star_eq_split_stop s fuel qx qy qm qsize qcx qcy c0 c1 c2 c3
      ex ey em ecx ecy e0 e1 e2 e3 hch hq2] at h
    simp only [Option.some.injEq, Prod.mk.injEq] at h
    obtain ⟨hr, -⟩ := h
    subst hr
    have hj4 : get_quadrant (sub_cx qcx qsize (get_quadrant qcx qcy s.x s.y))
        (sub_cy qcy qsize (get_quadrant qcx qcy s.x s.y)) ex ey < 4 :=
      quadrant_lt4 _ _ _ _
    refine az_setChild _ _ _ _ _ _ c0 c1 c2 c3 _ _ hi4 hqs haz0 haz1 haz2 haz3 ?_
    refine az_setChild _ _ _ _ _ _ QTree.nil QTree.nil QTree.nil QTree.nil _ _ hj4
      (by rw [hqs]; norm_num) ?_ ?_ ?_ ?_ hazc <;>
      · intro n hn
        exact absurd hn (by simp [QTree.allNodes])

/-- The build fold keeps all sizes zero. -/
theorem build_from_az : ∀ (todo : List StarS) (fuel : ℕ) (t : QTree) (cnt : ℕ)
    (r : QTree) (rc : ℕ), build_from fuel todo t cnt = some (r, rc) →
    (∀ n ∈ QTree.allNodes t, n.size = 0) →
    ∀ n ∈ QTree.allNodes r, n.size = 0 := by
  intro todo
  induction todo with
  | nil =>
    intro fuel t cnt r rc h haz
    simp only [build_from, Option.some.injEq, Prod.mk.injEq] at h
    obtain ⟨rfl, -⟩ := h
    exact haz
  | cons s rest ih =>
    intro fuel t cnt r rc h haz
    rcases hi : insert_star s fuel t with _ | ⟨t2, k⟩
    · rw [build_from_cons_none fuel s rest t cnt hi] at h
      exact absurd h (by simp)
    · rw [build_from_cons_some fuel s rest t t2 cnt k hi] at h
      exact ih fuel t2 (cnt + k) r rc h (insert_star_az fuel s t t2 k hi haz)

/-- `TreeOK` is exactly `NodeOK` at every node of the tree. -/
theorem TreeOK_allNodes : ∀ t : QTree, TreeOK t → ∀ n ∈ QTree.allNodes t, NodeOK n := by
  intro t
  induction t with
  | nil =>
    intro _ n hn
    exact absurd hn (by simp [QTree.allNodes])
  | node x y m s cx cy c0 c1 c2 c3 ih0 ih1 ih2 ih3 =>
    intro hTO n hn
    simp only [TreeOK] at hTO
    obtain ⟨hN, t0, t1, t2, t3⟩ := hTO
    simp only [QTree.allNodes, List.mem_cons, List.mem_append] at hn
    rcases hn with rfl | ⟨⟨h | h⟩ | h⟩ | h
    · exact hN
    · exact ih0 t0 n h
    · exact ih1 t1 n h
    · exact ih2 t2 n h
    · exact ih3 t3 n h

/-- The root of a built tree is in its own node list. -/
theorem root_mem_allNodes (t : QTree) (h : t ≠ QTree.nil) : t ∈ QTree.allNodes t := by
  rcases t with _ | ⟨x, y, m, s, cx, cy, c0, c1, c2, c3⟩
  · exact absurd rfl h
  · simp [QTree.allNodes]

/-- **C4**. After any completed build phase with positive star masses,
every node of the tree carries as `mass` the exact sum of the masses of
the stars recorded below it and as `(x, y)` their exact mass-weighted
mean (division form whenever the node mass is nonzero), and the root's
mass is the exact total mass of the star list.  When the root square is
nondegenerate (not all stars exactly coincident) the root records
exactly the whole star list; in the degenerate zero-side frame the
builder drops coincident stars from the tree (world.c:262 exits before
storing them) and every node is a size-0 record of itself, so the
per-node property is immediate.  Arithmetic is exact (`ℚ`), matching
the claim's "exactly, when arithmetic is exact" reading; the stated
`N · machine-epsilon` float tolerance is about IEEE rounding and is not
part of this model. -/
theorem C4_com_invariant (stars : List StarS) (fuel : ℕ) (t : QTree) (cnt : ℕ)
    (hmass : ∀ s ∈ stars, 0 < s.mass)
    (hbuild : build_tree fuel stars = some (t, cnt)) :
    (∀ n ∈ QTree.allNodes t,
      n.mass = msum (contents n) ∧
      n.x * n.mass = mxsum (contents n) ∧
      n.y * n.mass = mysum (contents n) ∧
      (n.mass ≠ 0 → n.x = mxsum (contents n) / n.mass ∧
        n.y = mysum (contents n) / n.mass)) ∧
    t.mass = (stars.map (fun s => s.mass)).sum ∧
    ((init_root stars).size ≠ 0 →
      contents t = ↑(stars.map (fun s => (s.x, s.y, s.mass)))) := by
  unfold build_tree at hbuild
  have hm : t.mass = (stars.map (fun s => s.mass)).sum := by
    have h := build_from_mass stars fuel (init_root stars) 1 t cnt hbuild
    rw [h]
    have hm0 : (init_root stars).mass = 0 := rfl
    rw [hm0, zero_add]
  by_cases hsz0 : (init_root stars).size = 0
  · -- degenerate frame: all sizes are zero and every node records itself
    have haz0 : ∀ n ∈ QTree.allNodes (init_root stars), n.size = 0 := by
      have hall : QTree.allNodes (init_root stars) = [init_root stars] := rfl
      intro n hn
      rw [hall] at hn
      simp only [List.mem_cons, List.not_mem_nil, or_false] at hn
      subst hn
      exact hsz0
    have haz := build_from_az stars fuel (init_root stars) 1 t cnt hbuild haz0
    refine ⟨?_, hm, fun h0 => absurd hsz0 h0⟩
    intro n hn
    have hne2 := mem_allNodes_ne_nil t n hn
    have hsz := haz n hn
    rw [contents_star n hne2 hsz]
    refine ⟨?_, ?_, ?_, fun hmne => ⟨?_, ?_⟩⟩
    · simp [msum]
    · simp [mxsum]
    · simp [mysum]
    · rw [eq_div_iff hmne]; simp [mxsum]
    · rw [eq_div_iff hmne]; simp [mysum]
  · -- nondegenerate frame: the full build invariants apply
    have hszpos : 0 < (init_root stars).size :=
      lt_of_le_of_ne (init_root_size_nonneg stars) (Ne.symm hsz0)
    obtain ⟨hII, hInil, hrest⟩ := init_root_props stars
    obtain ⟨hC0, hTO0, hPM0⟩ := hrest hsz0
    obtain ⟨rI, rT, rPM, rS, rX, rY, rC⟩ := build_from_spec stars fuel
      (init_root stars) 1 t cnt hbuild hII hszpos hTO0 hPM0
      (fun s hs => star_in_root_square stars s hs) hmass
    rw [hC0, add_zero] at rC
    refine ⟨?_, hm, fun _ => rC⟩
    intro n hn
    obtain ⟨h1, h2, h3⟩ := TreeOK_allNodes t rT n hn
    refine ⟨h1, h2, h3, fun hmne => ⟨?_, ?_⟩⟩
    · rw [eq_div_iff hmne]
      exact h2
    · rw [eq_div_iff hmne]
      exact h3

/-- Witness for C4: a concrete 2-star build; the root of the resulting
tree has the total mass 3 and records exactly the star list. -/
theorem C4_witness :
    (∀ s ∈ demoA, 0 < s.mass) ∧
    demoTreeA.mass = (demoA.map (fun s => s.mass)).sum ∧
    contents demoTreeA = ↑(demoA.map (fun s => (s.x, s.y, s.mass))) := by
  have hbuild : build_tree 5 demoA = some (demoTreeA, 1) := by
    norm_num [build_tree, build_from, insert_star, init_root, fold_min, fold_max,
      get_quadrant, sub_cx, sub_cy, star_leaf, QTree.child, QTree.setChild,
      QTree.size, QTree.x, QTree.y, QTree.mass, QTree.cx, QTree.cy, demoA,
      demoTreeA, node_ne_nil]
  have hmass : ∀ s ∈ demoA, 0 < s.mass := by
    intro s hs
    simp only [demoA, List.mem_cons, List.not_mem_nil, or_false] at hs
    rcases hs with rfl | rfl <;> norm_num
  have h := C4_com_invariant demoA 5 demoTreeA 1 hmass hbuild
  refine ⟨hmass, h.2.1, h.2.2 ?_⟩
  norm_num [init_root, fold_min, fold_max, demoA, QTree.size]

/-- All insertions of the build phase terminate when no two stars share
exact coordinates. -/
theorem build_from_exists : ∀ (todo : List StarS) (t : QTree) (cnt : ℕ),
    InvT t → 0 < t.size →
    (∀ s ∈ todo, in_square t.cx t.cy t.size s.x s.y) →
    (∀ s ∈ todo, ∀ p ∈ contents t, ((s.x, s.y) : ℚ × ℚ) ≠ (p.1, p.2.1)) →
    List.Pairwise (fun a b => ((a.x, a.y) : ℚ × ℚ) ≠ (b.x, b.y)) todo →
    ∃ fuel res, build_from fuel todo t cnt = some res := by
  intro todo
  induction todo with
  | nil => intro t cnt _ _ _ _ _; exact ⟨1, (t, cnt), rfl⟩
  | cons s rest ih =>
    intro t cnt hI hsz hin hdc hpw
    obtain ⟨hhead, htail⟩ := List.pairwise_cons.mp hpw
    have hpos : ∀ p ∈ contents t, 0 < dinf s.x s.y p.1 p.2.1 := fun p hp =>
      dinf_pos_of_ne _ _ _ _ (hdc s (List.mem_cons_self s rest) p hp)
    obtain ⟨k, hk⟩ := exists_separation_level t.size s (contents t) hpos
    obtain ⟨f1, ⟨t2, kk⟩, hins⟩ := insert_exists (k + t.numNodes) k t s (le_refl _)
      hI hsz (hin s (List.mem_cons_self s rest)) hk
    obtain ⟨iI, iS, iX, iY, iN, iC⟩ := insert_spec_struct f1 s t t2 kk hins hI hsz
      (hin s (List.mem_cons_self s rest))
    obtain ⟨f2, res, hrest⟩ := ih t2 (cnt + kk) iI (by rw [iS]; exact hsz)
      (fun s2 hs2 => by
        rw [iS, iX, iY]
        exact hin s2 (List.mem_cons_of_mem s hs2))
      (fun s2 hs2 p hp => by
        rw [iC] at hp
        rcases Multiset.mem_cons.mp hp with rfl | hp2
        · exact fun hcontra => (hhead s2 hs2) (by
            simp only [Prod.mk.injEq] at hcontra ⊢
            exact ⟨hcontra.1.symm, hcontra.2.symm⟩)
        · exact hdc s2 (List.mem_cons_of_mem s hs2) p hp2)
      htail
    refine ⟨max f1 f2, res, ?_⟩
    rw [build_from_cons_some (max f1 f2) s rest t t2 cnt kk
      (insert_star_mono_le s t (t2, kk) f1 (max f1 f2) (le_max_left f1 f2) hins)]
    exact build_from_mono_le rest t2 (cnt + kk) res f2 (max f1 f2)
      (le_max_right f1 f2) hrest

/-- **C9**. For a star list in which no two stars share exact
coordinates (and with at least the two stars `init_world` asserts), the
per-star insertion loop of the tree builder terminates for every star:
the whole build phase completes with some finite fuel.  (Each descent
stops at an empty slot or splits, the freshly split quads halve the side
exactly, and two distinct positions are separated once the side drops
below their Chebyshev distance.) -/
theorem C9_insertion_terminates (stars : List StarS)
    (hpw : List.Pairwise (fun a b => ((a.x, a.y) : ℚ × ℚ) ≠ (b.x, b.y)) stars)
    (hlen : 2 ≤ stars.length) :
    ∃ fuel t cnt, build_tree fuel stars = some (t, cnt) := by
  obtain ⟨a, b, rest, rfl⟩ : ∃ a b rest, stars = a :: b :: rest := by
    rcases stars with _ | ⟨a, _ | ⟨b, rest⟩⟩
    · exact absurd hlen (by simp)
    · exact absurd hlen (by simp)
    · exact ⟨a, b, rest, rfl⟩
  have hab : ((a.x, a.y) : ℚ × ℚ) ≠ (b.x, b.y) :=
    (List.pairwise_cons.mp hpw).1 b (List.mem_cons_self b rest)
  have hszpos : 0 < (init_root (a :: b :: rest)).size :=
    init_root_size_pos (a :: b :: rest) a b (List.mem_cons_self a (b :: rest))
      (List.mem_cons_of_mem a (List.mem_cons_self b rest)) hab
  obtain ⟨hII, -, hrest2⟩ := init_root_props (a :: b :: rest)
  obtain ⟨hC0, -, -⟩ := hrest2 (ne_of_gt hszpos)
  obtain ⟨fuel, ⟨t, cnt⟩, h⟩ := build_from_exists (a :: b :: rest)
    (init_root (a :: b :: rest)) 1 hII hszpos
    (fun s hs => star_in_root_square (a :: b :: rest) s hs)
    (fun s _ p hp => by
      rw [hC0] at hp
      exact absurd hp (Multiset.not_mem_zero p))
    hpw
  exact ⟨fuel, t, cnt, h⟩

/-- Witness for C9: the two distinct demo stars build successfully. -/
theorem C9_witness : ∃ fuel t cnt, build_tree fuel demoA = some (t, cnt) := by
  refine C9_insertion_terminates demoA ?_ (by norm_num [demoA])
  norm_num [demoA, List.pairwise_cons]

end Constel
